import Mathlib

/-!
# SHA-256 manifest tool: the streaming hash engine

A shallow embedding of `struct Sha256` from
`scripts/automation/zeid_data_sha256_manifest_cpp/zeid_data_sha256_manifest.cpp`.

Conventions of the embedding:

* `uint32_t` values are `Nat`s, every arithmetic result is reduced `% 2^32`;
* `uint64_t bits` and `size_t len` are `Nat`s reduced `% 2^64` (an LP64 target);
* `uint8_t` values are `UInt8`, used only as containers (no arithmetic on them);
* `std::array<uint8_t, 64> buf` is indexed memory `Nat → UInt8`; only the
  cells `0..63` exist in the program and only those are ever read;
* member functions take the object as an explicit argument and return the
  updated object;
* the `trace` field is ghost state: it records, in program order, every write
  into `buf` and every call of `compress`.  The program does not have it and
  no modelled computation reads it;
* the functions are total.  A write at an index `≥ 64`, which the program
  leaves undefined, changes a cell that is never read and is recorded in the
  trace like any other write; from a state with `len < 64` none occurs;
* loops run on fuel: `update_fuel` and `zeroFill_spec` show that the fuel
  given is enough for the loop to reach its exit condition;
* the reference of the standard (`Fips`, `sha256Ref`) is written from
  FIPS 180-4 on `BitVec 32` words, with its constants defined as roots of the
  primes; it uses none of the definitions that embed `compress`;
* `compressChecked` repeats the body of `compress` with every subscript
  checked against the declared size of its array.
-/

namespace Sha256Manifest

/-- Ghost record of one side effect on the buffer, or one call of `compress`. -/
inductive Event where
  /-- The call `std::memcpy(buf.data()+off, data, n)`. -/
  | copy (off n : Nat)
  /-- The assignment `buf[idx] = v`. -/
  | store (idx : Nat)
  /-- The call `compress(block)`, with the 64 bytes it was given. -/
  | compress (block : List UInt8)

/-- Recogniser for `compress` events. -/
def Event.isCompress : Event → Bool
  | Event.compress _ => true
  | _ => false

/-- The object `struct Sha256` (fields `h`, `buf`, `bits`, `len`) plus the ghost trace. -/
structure Sha256 where
  h : List Nat
  buf : Nat → UInt8
  bits : Nat
  len : Nat
  trace : List Event

/-- The member initialisers: a default-constructed `Sha256`. -/
def Sha256.fresh : Sha256 where
  h := [0x6a09e667, 0xbb67ae85, 0x3c6ef372, 0xa54ff53a,
        0x510e527f, 0x9b05688c, 0x1f83d9ab, 0x5be0cd19]
  buf := fun _ => 0
  bits := 0
  len := 0
  trace := []

/-- The function `rotr`: `(x>>n) | (x<<(32-n))` on `uint32_t`. -/
def rotr (x n : Nat) : Nat := (x >>> n) ||| ((x <<< (32 - n)) % 2^32)

/-- The function `ch`: `(x & y) ^ (~x & z)`. -/
def ch (x y z : Nat) : Nat := (x &&& y) ^^^ (((0xffffffff ^^^ x) % 2^32) &&& z)

/-- The function `maj`: `(x & y) ^ (x & z) ^ (y & z)`. -/
def maj (x y z : Nat) : Nat := (x &&& y) ^^^ (x &&& z) ^^^ (y &&& z)

/-- The function `bsig0`. -/
def bsig0 (x : Nat) : Nat := rotr x 2 ^^^ rotr x 13 ^^^ rotr x 22

/-- The function `bsig1`. -/
def bsig1 (x : Nat) : Nat := rotr x 6 ^^^ rotr x 11 ^^^ rotr x 25

/-- The function `ssig0`. -/
def ssig0 (x : Nat) : Nat := rotr x 7 ^^^ rotr x 18 ^^^ (x >>> 3)

/-- The function `ssig1`. -/
def ssig1 (x : Nat) : Nat := rotr x 17 ^^^ rotr x 19 ^^^ (x >>> 10)

/-- The round-constant table `k`, one list per source line. -/
def k : List Nat :=
  [0x428a2f98, 0x71374491, 0xb5c0fbcf, 0xe9b5dba5, 0x3956c25b, 0x59f111f1, 0x923f82a4, 0xab1c5ed5] ++
  [0xd807aa98, 0x12835b01, 0x243185be, 0x550c7dc3, 0x72be5d74, 0x80deb1fe, 0x9bdc06a7, 0xc19bf174] ++
  [0xe49b69c1, 0xefbe4786, 0x0fc19dc6, 0x240ca1cc, 0x2de92c6f, 0x4a7484aa, 0x5cb0a9dc, 0x76f988da] ++
  [0x983e5152, 0xa831c66d, 0xb00327c8, 0xbf597fc7, 0xc6e00bf3, 0xd5a79147, 0x06ca6351, 0x14292967] ++
  [0x27b70a85, 0x2e1b2138, 0x4d2c6dfc, 0x53380d13, 0x650a7354, 0x766a0abb, 0x81c2c92e, 0x92722c85] ++
  [0xa2bfe8a1, 0xa81a664b, 0xc24b8b70, 0xc76c51a3, 0xd192e819, 0xd6990624, 0xf40e3585, 0x106aa070] ++
  [0x19a4c116, 0x1e376c08, 0x2748774c, 0x34b0bcb5, 0x391c0cb3, 0x4ed8aa4a, 0x5b9cca4f, 0x682e6ff3] ++
  [0x748f82ee, 0x78a5636f, 0x84c87814, 0x8cc70208, 0x90befffa, 0xa4506ceb, 0xbef9a3f7, 0xc67178f2]

/-- First loop of `compress`, body for index `i`: the big-endian word `w[i]`
of the block. -/
def loadWord (block : List UInt8) (i : Nat) : Nat :=
  ((block.getD (i*4) 0).toNat <<< 24) % 2^32 |||
  ((block.getD (i*4+1) 0).toNat <<< 16) % 2^32 |||
  ((block.getD (i*4+2) 0).toNat <<< 8) % 2^32 |||
  (block.getD (i*4+3) 0).toNat

/-- Second loop of `compress`, body for index `i`, where `w` holds the words
`w[0..i)` computed so far: the assignment to `w[i]` appends the new word. -/
def extendStep (w : List Nat) (i : Nat) : List Nat :=
  w ++ [(ssig1 (w.getD (i-2) 0) + w.getD (i-7) 0 + ssig0 (w.getD (i-15) 0) + w.getD (i-16) 0) % 2^32]

/-- The array `w[64]` of `compress` after its first two loops. -/
def schedule (block : List UInt8) : List Nat :=
  (List.range' 16 48).foldl extendStep ((List.range 16).map (loadWord block))

/-- The working variables `a, b, c, d, e, f, g, hh` of `compress`. -/
structure Vars where
  a : Nat
  b : Nat
  c : Nat
  d : Nat
  e : Nat
  f : Nat
  g : Nat
  hh : Nat

/-- Third loop of `compress`, body for index `i`. -/
def round (w : List Nat) (v : Vars) (i : Nat) : Vars :=
  let t1 := (v.hh + bsig1 v.e + ch v.e v.f v.g + k.getD i 0 + w.getD i 0) % 2^32
  let t2 := (bsig0 v.a + maj v.a v.b v.c) % 2^32
  { hh := v.g, g := v.f, f := v.e, e := (v.d + t1) % 2^32,
    d := v.c, c := v.b, b := v.a, a := (t1 + t2) % 2^32 }

/-- The effect of `compress` on the accumulator `h`. -/
def compressWords (h : List Nat) (block : List UInt8) : List Nat :=
  let w := schedule block
  let v0 : Vars := { a := h.getD 0 0, b := h.getD 1 0, c := h.getD 2 0, d := h.getD 3 0,
                     e := h.getD 4 0, f := h.getD 5 0, g := h.getD 6 0, hh := h.getD 7 0 }
  let v := (List.range 64).foldl (round w) v0
  [(h.getD 0 0 + v.a) % 2^32, (h.getD 1 0 + v.b) % 2^32, (h.getD 2 0 + v.c) % 2^32,
   (h.getD 3 0 + v.d) % 2^32, (h.getD 4 0 + v.e) % 2^32, (h.getD 5 0 + v.f) % 2^32,
   (h.getD 6 0 + v.g) % 2^32, (h.getD 7 0 + v.hh) % 2^32]

/-- The member function `compress`. -/
def compress (s : Sha256) (block : List UInt8) : Sha256 :=
  { s with h := compressWords s.h block, trace := s.trace ++ [Event.compress block] }

/-- The 64 bytes at `buf.data()`. -/
def bufBlock (buf : Nat → UInt8) : List UInt8 := (List.range 64).map buf

/-- The effect of `std::memcpy(buf.data()+off, src, src.length)` on the buffer. -/
def memcpy (buf : Nat → UInt8) (off : Nat) (src : List UInt8) : Nat → UInt8 :=
  fun j => if off ≤ j ∧ j < off + src.length then src.getD (j - off) 0 else buf j

/-- The statement `size_t take = std::min(n, 64 - len)`, in `size_t` arithmetic. -/
def updateTake (s : Sha256) (n : Nat) : Nat := min n ((64 + 2^64 - s.len) % 2^64)

/-- One pass through the body of the `while(n)` loop of `update`, `data` being
the input not yet consumed: the copy into `buf`, the advance of `len`, and the
`compress` of a full buffer.  (The advance of `data` and `n` is in `updateLoop`.) -/
def updateBody (s : Sha256) (data : List UInt8) : Sha256 :=
  let take := updateTake s data.length
  let s1 : Sha256 :=
    { s with buf := memcpy s.buf s.len (data.take take),
             len := (s.len + take) % 2^64,
             trace := s.trace ++ [Event.copy s.len take] }
  if s1.len = 64 then { compress s1 (bufBlock s1.buf) with len := 0 } else s1

/-- The `while(n)` loop of `update`; `data` is the part of the input not yet
consumed (the pointer `data` together with the count `n`).  `fuel` bounds the
number of iterations. -/
def updateLoop : Nat → Sha256 → List UInt8 → Sha256
  | 0, s, _ => s
  | fuel+1, s, data =>
    if data.length = 0 then s
    else updateLoop fuel (updateBody s data) (data.drop (updateTake s data.length))

/-- The member function `update(data, n)`, `data` being the `n` bytes passed.
At most one iteration of the loop (the first, when `len = 64`) consumes no
input, so `n + 1` iterations are enough (`update_fuel`). -/
def update (s : Sha256) (data : List UInt8) : Sha256 :=
  updateLoop (data.length + 1) { s with bits := (s.bits + data.length * 8) % 2^64 } data

/-- The statement `buf[len++] = v`. -/
def store (s : Sha256) (v : UInt8) : Sha256 :=
  { s with buf := fun j => if j = s.len then v else s.buf j,
           len := (s.len + 1) % 2^64,
           trace := s.trace ++ [Event.store s.len] }

/-- The loop `while(len < lim) buf[len++] = 0;`, with `fuel` bounding the
number of iterations. -/
def zeroFill (lim : Nat) : Nat → Sha256 → Sha256
  | 0, s => s
  | fuel+1, s => if s.len < lim then zeroFill lim fuel (store s 0) else s

/-- The loop `for(int i=7;i>=0;i--) buf[len++] = uint8_t((bits >> (i*8)) & 0xff);`. -/
def lengthLoop (s : Sha256) : Sha256 :=
  [7, 6, 5, 4, 3, 2, 1, 0].foldl
    (fun t i => store t (UInt8.ofNat ((t.bits >>> (i*8)) &&& 0xff))) s

/-- The stream output `oss << std::hex << std::setfill('0') << std::setw(8) << v`. -/
def hex8 (v : Nat) : String :=
  let ds := Nat.toDigits 16 v
  String.mk (List.replicate (8 - ds.length) '0' ++ ds)

/-- The member function `final_hex`: the returned string, and the object as
the call leaves it. -/
def final_hex (s : Sha256) : String × Sha256 :=
  let s1 := store s 0x80
  let s2 : Sha256 :=
    if s1.len > 56 then
      let s1z := zeroFill 64 64 s1
      { compress s1z (bufBlock s1z.buf) with len := 0 }
    else s1
  let s3 := zeroFill 56 56 s2
  let s4 := lengthLoop s3
  let s5 := compress s4 (bufBlock s4.buf)
  (String.join (s5.h.map hex8), s5)

/-! ### Notions used to state the properties -/

/-- The first `n` bytes of the buffer. -/
def memFirst (buf : Nat → UInt8) (n : Nat) : List UInt8 := (List.range n).map buf

/-- The pending bytes of a state: `buf[0..len)`. -/
def pend (s : Sha256) : List UInt8 := memFirst s.buf s.len

/-- The consecutive complete 64-byte blocks of a byte sequence. -/
def blocksOf (l : List UInt8) : List (List UInt8) :=
  (List.range (l.length / 64)).map (fun i => (l.drop (64 * i)).take 64)

/-- Number of `compress` calls recorded in a trace. -/
def compressCount (tr : List Event) : Nat := (tr.filter Event.isCompress).length

/-- The eight bytes stored by the `for(int i=7;i>=0;i--)` loop of `final_hex`
for a bit counter `bits`, in the order stored. -/
def lengthBytes (bits : Nat) : List UInt8 :=
  [7, 6, 5, 4, 3, 2, 1, 0].map (fun i => UInt8.ofNat ((bits >>> (i*8)) &&& 0xff))

/-- The bytes `final_hex` appends to `len` pending bytes before the last
`compress`: the marker, the zero fill of its two `while` loops, the length. -/
def padTail (len bits : Nat) : List UInt8 :=
  [0x80] ++ List.replicate (if len ≤ 55 then 55 - len else 119 - len) 0 ++ lengthBytes bits

/-! ### Reference notions, written from the specification -/

/-- Specification side: the sixteen lowercase hexadecimal digits. -/
def hexChars : List Char := "0123456789abcdef".data

/-- Specification side: the value of a hexadecimal digit, its position among
`hexChars`. -/
def hexVal (c : Char) : Nat := hexChars.indexOf c

/-- Specification side: a string of hexadecimal digits read as a big-endian number. -/
def parseHex (cs : List Char) : Nat := cs.foldl (fun acc c => 16 * acc + hexVal c) 0

/-- Specification side: `w` digits of `n` in base 16, most significant first
(the zero-padded `w`-digit lowercase hex of `n`). -/
def hexFixed : Nat → Nat → List Char
  | 0, _ => []
  | w+1, n => hexFixed w (n / 16) ++ [Nat.digitChar (n % 16)]

/-- Specification side: a 32-bit word as 4 big-endian bytes. -/
def be32 (w : Nat) : List UInt8 :=
  [3, 2, 1, 0].map (fun i => UInt8.ofNat (w / 256^i % 256))

/-- Specification side: the 8-byte big-endian encoding of a number. -/
def be64 (n : Nat) : List UInt8 :=
  [7, 6, 5, 4, 3, 2, 1, 0].map (fun i => UInt8.ofNat (n / 256^i % 256))

/-- Specification side: the two lowercase hex digits of a byte. -/
def hexByte (b : UInt8) : List Char :=
  [Nat.digitChar (b.toNat / 16), Nat.digitChar (b.toNat % 16)]

/-- Specification side: lowercase hex encoding of a byte sequence. -/
def hexEncode (bs : List UInt8) : String := String.mk (bs.map hexByte).flatten

/-- Specification side: the smallest number of `0x00` bytes that, after an
`n`-byte message and the `0x80` byte, makes the length congruent to 56 mod 64. -/
def padZeros (n : Nat) : Nat :=
  Nat.find (show ∃ z, (n + 1 + z) % 64 = 56 from ⟨(119 - n % 64) % 64, by omega⟩)

/-- Specification side: the padded message of FIPS 180-4. -/
def pad (m : List UInt8) : List UInt8 :=
  m ++ [0x80] ++ List.replicate (padZeros m.length) 0 ++ be64 (8 * m.length)

/-- A well-formed digest string: 64 characters, each a lowercase hex digit. -/
def IsDigest (str : String) : Prop := str.length = 64 ∧ ∀ c ∈ str.data, c ∈ hexChars

/-! ### Reading the ghost trace -/

/-- The blocks passed to `compress`, in call order, in a trace. -/
def compressedBlocks : List Event → List (List UInt8)
  | [] => []
  | Event.compress b :: es => b :: compressedBlocks es
  | Event.copy _ _ :: es => compressedBlocks es
  | Event.store _ :: es => compressedBlocks es

/-- The indices written by the `buf[len++] = v` statements of a trace, in order. -/
def storeIndices : List Event → List Nat
  | [] => []
  | Event.store i :: es => i :: storeIndices es
  | Event.copy _ _ :: es => storeIndices es
  | Event.compress _ :: es => storeIndices es

/-- A recorded event stays inside the 64-byte buffer: a copy of `n` bytes at
offset `off` ends at or before index 64, a store is at an index below 64, and
a `compress` reads exactly 64 bytes. -/
def Event.inBounds : Event → Bool
  | Event.copy off n => decide (off + n ≤ 64)
  | Event.store idx => decide (idx < 64)
  | Event.compress b => decide (b.length = 64)

/-- Two states that differ only in buffer bytes at or after `len`: `len = 1`,
the same first byte, and different bytes everywhere else. -/
def staleA : Sha256 := { Sha256.fresh with len := 1, buf := fun _ => 0 }

/-- See `staleA`. -/
def staleB : Sha256 := { Sha256.fresh with len := 1, buf := fun j => if j = 0 then 0 else 0xff }

/-! ### Reference notions for the constant tables and the bit operations -/

/-- Specification side: primality by trial division. -/
def isPrime (n : Nat) : Bool :=
  decide (2 ≤ n) && (List.range n).all (fun d => decide (d < 2) || decide (n % d ≠ 0))

/-- Specification side: the primes up to 311 in increasing order; there are 64. -/
def firstPrimes : List Nat := (List.range 312).filter isPrime

/-- Specification side: the integer part of the `r`-th root of `p`. -/
def floorRoot (r p : Nat) : Nat := Nat.findGreatest (fun m => m ^ r ≤ p) p

/-- Specification side: `x` is the first 32 bits of the fractional part of the
`r`-th root of `p`, that is `floorRoot r p + x / 2^32` is the `r`-th root of
`p` rounded down to 32 binary places. -/
def IsFracRootBits (r p x : Nat) : Prop :=
  (x + floorRoot r p * 2^32) ^ r ≤ p * 2^(32 * r) ∧
  p * 2^(32 * r) < (x + floorRoot r p * 2^32 + 1) ^ r

instance (r p x : Nat) : Decidable (IsFracRootBits r p x) := by
  unfold IsFracRootBits
  exact inferInstance

/-- Specification side: the number of set bits among bits `0..31`. -/
def popCount32 (x : Nat) : Nat := (List.range 32).countP (fun j => x.testBit j)

/-- Specification side: the message `m` with bit `b` of byte `i` flipped. -/
def flipBit (m : List UInt8) (i b : Nat) : List UInt8 :=
  m.set i (UInt8.ofNat ((m.getD i 0).toNat ^^^ 2^b))

/-- The digest of a message computed without the buffer: the accumulator
folded over the blocks of the message followed by the padding `final_hex`
appends, then rendered.  `digest_eq_foldDigest` shows it is what `update` and
`final_hex` return. -/
def foldDigest (m : List UInt8) : String :=
  String.join (((blocksOf (m ++ padTail (m.length % 64) ((8 * m.length) % 2^64))).foldl
    compressWords Sha256.fresh.h).map hex8)

end Sha256Manifest

/-!
# Log summarizer: the counting loop

A shallow embedding of the counting part of `main` in
`scripts/automation/zeid_data_log_summarizer_cpp/zeid_data_log_summarizer.cpp`.
The input file is the list of its lines, as `std::getline` delivers them; the
map `counts` is a function from keys to values, `0` on keys it does not hold;
the `long long` counters are `Nat`s (no file has `2^63` lines).
-/

namespace LogSummarizer

/-- The test `line.find(t) != std::string::npos`: `t` starts at some position
of `line`. -/
def found (line t : String) : Bool := line.data.tails.any (fun s => t.data.isPrefixOf s)

/-- The statement `counts[t] += 1`. -/
def bump (counts : String → Nat) (t : String) : String → Nat :=
  fun u => if u = t then counts u + 1 else counts u

/-- The body of the `while(std::getline(in, line))` loop: for every token in
turn, `if(line.find(t) != npos) counts[t] += 1`. -/
def countLine (tokens : List String) (counts : String → Nat) (line : String) : String → Nat :=
  tokens.foldl (fun c t => if found line t then bump c t else c) counts

/-- Lines 59-69 of `main`: `counts[t] = 0` for every token, then the loop
over the lines of the file.  The result is the map that is written out. -/
def countTokens (tokens : List String) (lines : List String) : String → Nat :=
  lines.foldl (countLine tokens) (fun _ => 0)

/-- Specification side: the number of occurrences of `t` in a line, the
positions at which `t` starts. -/
def occurrences (t line : String) : Nat :=
  (line.data.tails.filter (fun s => t.data.isPrefixOf s)).length

/-- Specification side: the number of occurrences of `t` in a log. -/
def occurrencesIn (t : String) (lines : List String) : Nat :=
  (lines.map (occurrences t)).sum

end LogSummarizer

namespace Sha256Manifest

/-! ### FIPS 180-4, written from the standard

The SHA-256 of the standard on 32-bit words (`BitVec 32`), independent of the
program: the functions of section 4.1.2, the constants of sections 4.2.2 and
5.3.3 defined by the roots of the primes, the message schedule and the hash
computation of section 6.2.2. -/

namespace Fips

/-- Section 3.2: `ROTR n x = (x >> n) ∨ (x << w - n)`, `w = 32`. -/
def ROTR (n : Nat) (x : BitVec 32) : BitVec 32 := (x >>> n) ||| (x <<< (32 - n))

/-- Section 3.2: `SHR n x = x >> n`. -/
def SHR (n : Nat) (x : BitVec 32) : BitVec 32 := x >>> n

/-- Section 4.1.2, (4.2). -/
def Ch (x y z : BitVec 32) : BitVec 32 := (x &&& y) ^^^ (~~~x &&& z)

/-- Section 4.1.2, (4.3). -/
def Maj (x y z : BitVec 32) : BitVec 32 := (x &&& y) ^^^ (x &&& z) ^^^ (y &&& z)

/-- Section 4.1.2, (4.4): the upper-case sigma with index 0. -/
def bigSigma0 (x : BitVec 32) : BitVec 32 := ROTR 2 x ^^^ ROTR 13 x ^^^ ROTR 22 x

/-- Section 4.1.2, (4.5): the upper-case sigma with index 1. -/
def bigSigma1 (x : BitVec 32) : BitVec 32 := ROTR 6 x ^^^ ROTR 11 x ^^^ ROTR 25 x

/-- Section 4.1.2, (4.6): the lower-case sigma with index 0. -/
def smallSigma0 (x : BitVec 32) : BitVec 32 := ROTR 7 x ^^^ ROTR 18 x ^^^ SHR 3 x

/-- Section 4.1.2, (4.7): the lower-case sigma with index 1. -/
def smallSigma1 (x : BitVec 32) : BitVec 32 := ROTR 17 x ^^^ ROTR 19 x ^^^ SHR 10 x

/-- Section 4.2.2: `K t` is the first thirty-two bits of the fractional part
of the cube root of the `t`-th prime, `floor(cbrt(p) * 2^32) mod 2^32`. -/
def K (t : Nat) : BitVec 32 := BitVec.ofNat 32 (floorRoot 3 (firstPrimes.getD t 0 * 2^96))

/-- Section 5.3.3: word `j` of the initial hash value is the first thirty-two
bits of the fractional part of the square root of the `j`-th prime. -/
def initWord (j : Nat) : BitVec 32 :=
  BitVec.ofNat 32 (floorRoot 2 (firstPrimes.getD j 0 * 2^64))

/-- Eight 32-bit words: a hash value, or the working variables `a..h`. -/
structure Hash where
  a : BitVec 32
  b : BitVec 32
  c : BitVec 32
  d : BitVec 32
  e : BitVec 32
  f : BitVec 32
  g : BitVec 32
  h : BitVec 32

/-- Section 5.3.3: the initial hash value. -/
def H0 : Hash :=
  Hash.mk (initWord 0) (initWord 1) (initWord 2) (initWord 3)
    (initWord 4) (initWord 5) (initWord 6) (initWord 7)

/-- Section 5.2.1: word `t` of a 512-bit block, its bytes `4t..4t+3` read as a
big-endian number. -/
def M (block : List UInt8) (t : Nat) : BitVec 32 :=
  BitVec.ofNat 32
    ((block.getD (4 * t) 0).toNat * 256^3 + (block.getD (4 * t + 1) 0).toNat * 256^2
      + (block.getD (4 * t + 2) 0).toNat * 256 + (block.getD (4 * t + 3) 0).toNat)

/-- Section 6.2.2, step 1: the message schedule. -/
def W (block : List UInt8) (t : Nat) : BitVec 32 :=
  if _ : t < 16 then M block t
  else smallSigma1 (W block (t - 2)) + W block (t - 7)
    + smallSigma0 (W block (t - 15)) + W block (t - 16)
termination_by t
decreasing_by all_goals omega

/-- Section 6.2.2, step 3, one value of `t`: the new working variables. -/
def step (v : Hash) (kt wt : BitVec 32) : Hash :=
  let t1 := v.h + bigSigma1 v.e + Ch v.e v.f v.g + kt + wt
  let t2 := bigSigma0 v.a + Maj v.a v.b v.c
  Hash.mk (t1 + t2) v.a v.b v.c (v.d + t1) v.e v.f v.g

/-- Section 6.2.2, steps 2 and 3: the working variables after `t` rounds. -/
def rounds (block : List UInt8) (hv : Hash) : Nat → Hash
  | 0 => hv
  | t + 1 => step (rounds block hv t) (K t) (W block t)

/-- Section 6.2.2, step 4: the next hash value. -/
def compression (hv : Hash) (block : List UInt8) : Hash :=
  let v := rounds block hv 64
  Hash.mk (v.a + hv.a) (v.b + hv.b) (v.c + hv.c) (v.d + hv.d)
    (v.e + hv.e) (v.f + hv.f) (v.g + hv.g) (v.h + hv.h)

/-- The eight words of a hash value as numbers. -/
def words (hv : Hash) : List Nat :=
  [hv.a.toNat, hv.b.toNat, hv.c.toNat, hv.d.toNat, hv.e.toNat, hv.f.toNat, hv.g.toNat,
   hv.h.toNat]

end Fips

/-- Specification side: the SHA-256 of FIPS 180-4.  Start from the initial
hash value, apply the hash computation to the 64-byte blocks of the padded
message in order, hex-encode the big-endian bytes of the eight words. -/
def sha256Ref (m : List UInt8) : String :=
  hexEncode ((Fips.words ((blocksOf (pad m)).foldl Fips.compression Fips.H0)).map be32).flatten

/-! ### `compress` with every array access checked

The same statements as `compress`, each subscript made explicit.  Indices are
`int` in the source and integers here, so `i-16` below zero is seen as such.
An access outside the declared size of its array gives `none`, and so does
every computation after it. -/

/-- Read `a[j]` of an array declared with `size` cells, of which the cells in
`a` hold a value.  `none` for an index outside `0..size-1` and for a cell
that was never written. -/
def readAt {α : Type} (a : List α) (size : Nat) (j : Int) : Option α :=
  if 0 ≤ j ∧ j < size then a[j.toNat]? else none

/-- Write `w[i] = x` into an array declared with `size` cells whose cells
`0..i-1` are the ones written so far.  `none` for an index outside
`0..size-1`. -/
def writeAt (w : List Nat) (size : Nat) (i : Int) (x : Nat) : Option (List Nat) :=
  if 0 ≤ i ∧ i < size ∧ i.toNat = w.length then some (w ++ [x]) else none

/-- `w[i] = (block[i*4]<<24) | (block[i*4+1]<<16) | (block[i*4+2]<<8) | block[i*4+3]`
with `block` of 64 bytes and `w` of 64 words. -/
def loadStepChecked (block : List UInt8) (w : List Nat) (i : Nat) : Option (List Nat) := do
  let b0 ← readAt block 64 ((i : Int) * 4)
  let b1 ← readAt block 64 ((i : Int) * 4 + 1)
  let b2 ← readAt block 64 ((i : Int) * 4 + 2)
  let b3 ← readAt block 64 ((i : Int) * 4 + 3)
  writeAt w 64 i
    ((b0.toNat <<< 24) % 2^32 ||| (b1.toNat <<< 16) % 2^32 ||| (b2.toNat <<< 8) % 2^32
      ||| b3.toNat)

/-- `w[i] = ssig1(w[i-2]) + w[i-7] + ssig0(w[i-15]) + w[i-16]`. -/
def extendStepChecked (w : List Nat) (i : Nat) : Option (List Nat) := do
  let w2 ← readAt w 64 ((i : Int) - 2)
  let w7 ← readAt w 64 ((i : Int) - 7)
  let w15 ← readAt w 64 ((i : Int) - 15)
  let w16 ← readAt w 64 ((i : Int) - 16)
  writeAt w 64 i ((ssig1 w2 + w7 + ssig0 w15 + w16) % 2^32)

/-- The two schedule loops, `i = 0..15` and `i = 16..63`. -/
def scheduleChecked (block : List UInt8) : Option (List Nat) := do
  let w ← (List.range 16).foldlM (loadStepChecked block) []
  (List.range' 16 48).foldlM extendStepChecked w

/-- One round, reading `k[i]` and `w[i]`. -/
def roundChecked (w : List Nat) (v : Vars) (i : Nat) : Option Vars := do
  let ki ← readAt k 64 i
  let wi ← readAt w 64 i
  let t1 := (v.hh + bsig1 v.e + ch v.e v.f v.g + ki + wi) % 2^32
  let t2 := (bsig0 v.a + maj v.a v.b v.c) % 2^32
  some { hh := v.g, g := v.f, f := v.e, e := (v.d + t1) % 2^32,
         d := v.c, c := v.b, b := v.a, a := (t1 + t2) % 2^32 }

/-- The body of `compress` on the eight words `h`, all accesses checked. -/
def compressChecked (h : List Nat) (block : List UInt8) : Option (List Nat) := do
  let w ← scheduleChecked block
  let h0 ← readAt h 8 0
  let h1 ← readAt h 8 1
  let h2 ← readAt h 8 2
  let h3 ← readAt h 8 3
  let h4 ← readAt h 8 4
  let h5 ← readAt h 8 5
  let h6 ← readAt h 8 6
  let h7 ← readAt h 8 7
  let v ← (List.range 64).foldlM (roundChecked w)
    { a := h0, b := h1, c := h2, d := h3, e := h4, f := h5, g := h6, hh := h7 }
  some [(h0 + v.a) % 2^32, (h1 + v.b) % 2^32, (h2 + v.c) % 2^32, (h3 + v.d) % 2^32,
        (h4 + v.e) % 2^32, (h5 + v.f) % 2^32, (h6 + v.g) % 2^32, (h7 + v.hh) % 2^32]

/-! ## Lemmas -/

theorem memFirst_length (buf : Nat → UInt8) (n : Nat) : (memFirst buf n).length = n := by
  simp [memFirst]

theorem pend_length (s : Sha256) : (pend s).length = s.len := by
  simp [pend, memFirst_length]

theorem memFirst_memcpy (buf : Nat → UInt8) (off : Nat) (src : List UInt8) :
    memFirst (memcpy buf off src) (off + src.length) = memFirst buf off ++ src := by
  apply List.ext_getElem
  · simp [memFirst]
  · intro i h1 h2
    simp only [memFirst, List.getElem_map, List.getElem_range, memcpy]
    by_cases hi : i < off
    · have : ¬ (off ≤ i ∧ i < off + src.length) := by omega
      rw [if_neg this, List.getElem_append_left (by simpa using hi)]
      simp
    · have hi2 : i < off + src.length := by simpa [memFirst] using h1
      have : off ≤ i ∧ i < off + src.length := by omega
      rw [if_pos this, List.getElem_append_right (by simp; omega)]
      simp only [List.length_map, List.length_range]
      rw [List.getD_eq_getElem _ _ (by omega)]

theorem memFirst_store (buf : Nat → UInt8) (n : Nat) (v : UInt8) :
    memFirst (fun j => if j = n then v else buf j) (n + 1) = memFirst buf n ++ [v] := by
  simp only [memFirst, List.range_succ, List.map_append, List.map_cons, List.map_nil, if_true]
  congr 1
  apply List.map_congr_left
  intro a ha
  have : a ≠ n := by
    have := List.mem_range.mp ha
    omega
  simp [this]

theorem blocksOf_length (l : List UInt8) : (blocksOf l).length = l.length / 64 := by
  simp [blocksOf]

theorem blocksOf_short (l : List UInt8) (h : l.length < 64) : blocksOf l = [] := by
  have : l.length / 64 = 0 := by omega
  simp [blocksOf, this]

theorem blocksOf_cons (l : List UInt8) (h : 64 ≤ l.length) :
    blocksOf l = l.take 64 :: blocksOf (l.drop 64) := by
  have h1 : l.length / 64 = (l.length - 64) / 64 + 1 := by omega
  simp only [blocksOf, h1, List.length_drop, List.range_succ_eq_map, List.map_cons,
    List.map_map, Nat.mul_zero, List.drop_zero]
  congr 1
  apply List.map_congr_left
  intro i _
  simp only [Function.comp, List.drop_drop]
  congr 2
  omega

theorem blocksOf_append (a b : List UInt8) (h : a.length % 64 = 0) :
    blocksOf (a ++ b) = blocksOf a ++ blocksOf b := by
  generalize hn : a.length / 64 = n
  induction n generalizing a with
  | zero =>
    have : a.length = 0 := by omega
    have : a = [] := List.length_eq_zero.mp this
    subst this
    simp [blocksOf_short]
  | succ n ih =>
    have h64 : 64 ≤ a.length := by omega
    rw [blocksOf_cons (a ++ b) (by simp; omega), blocksOf_cons a h64]
    rw [List.take_append_of_le_length h64, List.drop_append_of_le_length h64]
    rw [ih (a.drop 64) (by simp; omega) (by simp; omega)]
    simp

theorem blocksOf_drop_full (l : List UInt8) :
    blocksOf (l.drop (l.length / 64 * 64)) = [] := by
  apply blocksOf_short
  simp
  omega

theorem blocksOf_take_full (l : List UInt8) :
    blocksOf (l.take (l.length / 64 * 64)) = blocksOf l := by
  have h := blocksOf_append (l.take (l.length / 64 * 64)) (l.drop (l.length / 64 * 64))
    (by simp; rw [Nat.min_eq_left (by omega)]; exact Nat.mul_mod_left _ _)
  rw [List.take_append_drop, blocksOf_drop_full, List.append_nil] at h
  exact h.symm

theorem blocksOf_append_rem (l t : List UInt8) :
    blocksOf (l ++ t) = blocksOf l ++ blocksOf (l.drop (l.length / 64 * 64) ++ t) := by
  conv_lhs => rw [← List.take_append_drop (l.length / 64 * 64) l, List.append_assoc]
  rw [blocksOf_append _ _ (by simp; rw [Nat.min_eq_left (by omega)]; exact Nat.mul_mod_left _ _),
    blocksOf_take_full]

theorem compressCount_append (a b : List Event) :
    compressCount (a ++ b) = compressCount a + compressCount b := by
  simp [compressCount]

theorem compressCount_single_compress (b : List UInt8) :
    compressCount [Event.compress b] = 1 := rfl

theorem compressCount_single_copy (o n : Nat) : compressCount [Event.copy o n] = 0 := rfl

theorem compressCount_single_store (i : Nat) : compressCount [Event.store i] = 0 := rfl

theorem compressCount_map_store (l : List Nat) :
    compressCount (l.map Event.store) = 0 := by
  induction l with
  | nil => rfl
  | cons a l ih =>
    simp only [compressCount, List.map_cons, List.filter, Event.isCompress] at ih ⊢
    exact ih

theorem pend_of_len_zero (t : Sha256) (ht : t.len = 0) : pend t = [] := by
  simp [pend, memFirst, ht]

theorem updateLoop_nil (fuel : Nat) (s : Sha256) : updateLoop fuel s [] = s := by
  cases fuel <;> simp [updateLoop]

theorem updateLoop_succ (fuel : Nat) (s : Sha256) (data : List UInt8) (hd : data ≠ []) :
    updateLoop (fuel + 1) s data
      = updateLoop fuel (updateBody s data) (data.drop (updateTake s data.length)) := by
  have : data.length ≠ 0 := by
    intro h; exact hd (List.length_eq_zero.mp h)
  simp only [updateLoop, if_neg this]

theorem updateTake_of_lt (s : Sha256) (n : Nat) (hlen : s.len < 64) :
    updateTake s n = min n (64 - s.len) := by
  have hwrap : (64 + 2^64 - s.len) % 2^64 = 64 - s.len := by omega
  rw [updateTake, hwrap]

/-- The loop body when the copy fills the buffer: the block made of the
pending bytes and the head of the input is compressed. -/
theorem updateBody_full (s : Sha256) (data : List UInt8) (hlen : s.len < 64)
    (hfull : 64 - s.len ≤ data.length) :
    (updateBody s data).h = compressWords s.h ((pend s ++ data).take 64) ∧
    (updateBody s data).len = 0 ∧
    (updateBody s data).bits = s.bits ∧
    (updateBody s data).trace = s.trace ++
      [Event.copy s.len (64 - s.len), Event.compress ((pend s ++ data).take 64)] := by
  have htake : updateTake s data.length = 64 - s.len := by
    rw [updateTake_of_lt s _ hlen]; omega
  have h64 : (s.len + (64 - s.len)) % 2^64 = 64 := by omega
  have hblock : bufBlock (memcpy s.buf s.len (data.take (64 - s.len)))
      = (pend s ++ data).take 64 := by
    have := memFirst_memcpy s.buf s.len (data.take (64 - s.len))
    have hl : (data.take (64 - s.len)).length = 64 - s.len := by
      simp; omega
    rw [hl] at this
    have e : s.len + (64 - s.len) = 64 := by omega
    rw [e] at this
    have e2 : (memFirst s.buf s.len).take 64 = memFirst s.buf s.len :=
      List.take_of_length_le (by rw [memFirst_length]; omega)
    rw [bufBlock.eq_1, ← memFirst.eq_1, this, pend,
      List.take_append_eq_append_take, memFirst_length, e2]
  simp only [updateBody, htake, h64, if_true, hblock, compress, List.append_assoc,
    List.singleton_append, and_self]

/-- The loop body when the copy leaves the buffer short of a block. -/
theorem updateBody_short (s : Sha256) (data : List UInt8) (hlen : s.len < 64)
    (hshort : data.length < 64 - s.len) :
    (updateBody s data).h = s.h ∧
    (updateBody s data).len = s.len + data.length ∧
    pend (updateBody s data) = pend s ++ data ∧
    (updateBody s data).bits = s.bits ∧
    (updateBody s data).trace = s.trace ++ [Event.copy s.len data.length] := by
  have htake : updateTake s data.length = data.length := by
    rw [updateTake_of_lt s _ hlen]; omega
  have hmod : (s.len + data.length) % 2^64 = s.len + data.length := by omega
  have hne : ¬ s.len + data.length = 64 := by omega
  simp only [updateBody, htake, hmod, if_neg hne, List.take_length, pend, true_and, and_true]
  exact memFirst_memcpy s.buf s.len data

/-- What the `update` loop computes from a state whose buffer is not full. -/
theorem updateLoop_spec (fuel : Nat) (s : Sha256) (data : List UInt8)
    (hlen : s.len < 64) (hf : data.length ≤ fuel) :
    (updateLoop fuel s data).h = (blocksOf (pend s ++ data)).foldl compressWords s.h ∧
    (updateLoop fuel s data).len = (s.len + data.length) % 64 ∧
    pend (updateLoop fuel s data) = (pend s ++ data).drop ((s.len + data.length) / 64 * 64) ∧
    (updateLoop fuel s data).bits = s.bits ∧
    ∃ evs, (updateLoop fuel s data).trace = s.trace ++ evs ∧
      compressCount evs = (s.len + data.length) / 64 := by
  induction fuel generalizing s data with
  | zero =>
    have : data = [] := List.length_eq_zero.mp (by omega)
    subst this
    have h0 : s.len / 64 = 0 := by omega
    have h1 : s.len % 64 = s.len := by omega
    refine ⟨?_, ?_, ?_, ?_, [], ?_, ?_⟩ <;>
      simp [updateLoop, blocksOf_short, pend_length, hlen, h0, h1, compressCount]
  | succ fuel ih =>
    by_cases hd : data = []
    · subst hd
      have h0 : s.len / 64 = 0 := by omega
      have h1 : s.len % 64 = s.len := by omega
      refine ⟨?_, ?_, ?_, ?_, [], ?_, ?_⟩ <;>
        simp [updateLoop, blocksOf_short, pend_length, hlen, h0, h1, compressCount]
    · have hpos : 0 < data.length := List.length_pos.mpr hd
      rw [updateLoop_succ fuel s data hd]
      by_cases hfull : 64 - s.len ≤ data.length
      · obtain ⟨b1, b2, b3, b4⟩ := updateBody_full s data hlen hfull
        have htake : updateTake s data.length = 64 - s.len := by
          rw [updateTake_of_lt s _ hlen]; omega
        rw [htake]
        obtain ⟨i1, i2, i3, i4, evs, i5, i6⟩ := ih (updateBody s data)
          (data.drop (64 - s.len)) (by omega) (by simp; omega)
        rw [pend_of_len_zero _ b2] at i1 i3
        have hcons := blocksOf_cons (pend s ++ data) (by simp [pend_length]; omega)
        have hdrop : (pend s ++ data).drop 64 = data.drop (64 - s.len) := by
          rw [List.drop_append_eq_append_drop, pend_length,
            List.drop_of_length_le (by rw [pend_length]; omega)]
          simp
        refine ⟨?_, ?_, ?_, ?_, [Event.copy s.len (64 - s.len),
          Event.compress ((pend s ++ data).take 64)] ++ evs, ?_, ?_⟩
        · rw [i1, hcons, hdrop, b1]; simp
        · rw [i2, b2]; simp only [List.length_drop]; omega
        · rw [i3, b2]
          simp only [List.nil_append, List.length_drop, Nat.zero_add]
          have e : (s.len + data.length) / 64 * 64
              = 64 + (data.length - (64 - s.len)) / 64 * 64 := by omega
          rw [e, ← List.drop_drop, hdrop]
        · rw [i4, b3]
        · rw [i5, b4, List.append_assoc]
        · rw [compressCount_append, i6, b2]
          simp only [List.length_drop, Nat.zero_add]
          have : compressCount [Event.copy s.len (64 - s.len),
              Event.compress ((pend s ++ data).take 64)] = 1 := rfl
          rw [this]
          omega
      · obtain ⟨b1, b2, b3, b4, b5⟩ := updateBody_short s data hlen (by omega)
        have htake : updateTake s data.length = data.length := by
          rw [updateTake_of_lt s _ hlen]; omega
        rw [htake, List.drop_length, updateLoop_nil]
        have h0 : (s.len + data.length) / 64 = 0 := by omega
        have h1 : (s.len + data.length) % 64 = s.len + data.length := by omega
        refine ⟨?_, ?_, ?_, ?_, [Event.copy s.len data.length], ?_, ?_⟩
        · rw [b1, blocksOf_short _ (by simp [pend_length]; omega)]; rfl
        · rw [b2, h1]
        · rw [b3, h0]; simp
        · exact b4
        · exact b5
        · rw [h0]; rfl

theorem updateBody_bits (s : Sha256) (data : List UInt8) :
    (updateBody s data).bits = s.bits := by
  simp only [updateBody]
  split <;> rfl

theorem updateLoop_bits (fuel : Nat) (s : Sha256) (data : List UInt8) :
    (updateLoop fuel s data).bits = s.bits := by
  induction fuel generalizing s data with
  | zero => rfl
  | succ fuel ih =>
    by_cases hd : data = []
    · subst hd; rw [updateLoop_nil]
    · rw [updateLoop_succ fuel s data hd, ih, updateBody_bits]

/-- The counter after `update`, for every state. -/
theorem update_bits (s : Sha256) (data : List UInt8) :
    (update s data).bits = (s.bits + 8 * data.length) % 2^64 := by
  rw [update, updateLoop_bits, Nat.mul_comm]

theorem updateBody_len (s : Sha256) (data : List UInt8) :
    (updateBody s data).len < 2^64 ∧ (updateBody s data).len ≠ 64 := by
  simp only [updateBody]
  split
  · exact ⟨by norm_num, by norm_num⟩
  · rename_i h
    exact ⟨Nat.mod_lt _ (by decide), h⟩

/-- From a state whose buffer is not full every iteration consumes input, so
any fuel of at least the input length gives the same final state. -/
theorem updateLoop_fuel (fuel1 fuel2 : Nat) (s : Sha256) (data : List UInt8)
    (hlt : s.len < 2^64) (hne : s.len ≠ 64)
    (h1 : data.length ≤ fuel1) (h2 : data.length ≤ fuel2) :
    updateLoop fuel1 s data = updateLoop fuel2 s data := by
  induction fuel1 generalizing fuel2 s data with
  | zero =>
    have : data = [] := List.length_eq_zero.mp (by omega)
    subst this
    rw [updateLoop_nil, updateLoop_nil]
  | succ fuel1 ih =>
    by_cases hd : data = []
    · subst hd; rw [updateLoop_nil, updateLoop_nil]
    · have hpos : 0 < data.length := List.length_pos.mpr hd
      obtain ⟨f2, rfl⟩ : ∃ f2, fuel2 = f2 + 1 := ⟨fuel2 - 1, by omega⟩
      rw [updateLoop_succ fuel1 s data hd, updateLoop_succ f2 s data hd]
      have htake : 1 ≤ updateTake s data.length := by
        have : 1 ≤ (64 + 2^64 - s.len) % 2^64 := by omega
        rw [updateTake]; omega
      obtain ⟨b1, b2⟩ := updateBody_len s data
      exact ih f2 (updateBody s data) _ b1 b2
        (by rw [List.length_drop]; omega) (by rw [List.length_drop]; omega)

/-- The loop of `update` terminates within the fuel that `update` gives it:
on every state any larger fuel leads to the same final state. -/
theorem update_fuel (s : Sha256) (data : List UInt8) (fuel : Nat)
    (hf : data.length + 1 ≤ fuel) :
    updateLoop fuel { s with bits := (s.bits + data.length * 8) % 2^64 } data
      = update s data := by
  rw [update]
  by_cases hd : data = []
  · subst hd; rw [updateLoop_nil, updateLoop_nil]
  · obtain ⟨f, rfl⟩ : ∃ f, fuel = f + 1 := ⟨fuel - 1, by omega⟩
    rw [updateLoop_succ f _ data hd, updateLoop_succ data.length _ data hd]
    by_cases h64 : s.len = 64
    · have htake : updateTake { s with bits := (s.bits + data.length * 8) % 2^64 } data.length
          = 0 := by
        simp [updateTake, h64]
      rw [htake, List.drop_zero]
      obtain ⟨b1, b2⟩ :=
        updateBody_len { s with bits := (s.bits + data.length * 8) % 2^64 } data
      exact updateLoop_fuel _ _ _ _ b1 b2 (by omega) (by omega)
    · obtain ⟨b1, b2⟩ :=
        updateBody_len { s with bits := (s.bits + data.length * 8) % 2^64 } data
      exact updateLoop_fuel _ _ _ _ b1 b2
        (by rw [List.length_drop]; omega) (by rw [List.length_drop]; omega)

/-- What `update` computes from a state whose buffer is not full. -/
theorem update_spec (s : Sha256) (data : List UInt8) (hlen : s.len < 64) :
    (update s data).h = (blocksOf (pend s ++ data)).foldl compressWords s.h ∧
    (update s data).len = (s.len + data.length) % 64 ∧
    pend (update s data) = (pend s ++ data).drop ((s.len + data.length) / 64 * 64) ∧
    ∃ evs, (update s data).trace = s.trace ++ evs ∧
      compressCount evs = (s.len + data.length) / 64 := by
  obtain ⟨i1, i2, i3, _, i5⟩ := updateLoop_spec (data.length + 1)
    { s with bits := (s.bits + data.length * 8) % 2^64 } data hlen (by omega)
  exact ⟨i1, i2, i3, i5⟩

/-- The statement `buf[len++] = v` on a state with `len < 64`. -/
theorem store_spec (s : Sha256) (v : UInt8) (hlen : s.len < 64) :
    (store s v).len = s.len + 1 ∧ pend (store s v) = pend s ++ [v] ∧
    (store s v).h = s.h ∧ (store s v).bits = s.bits ∧
    (store s v).trace = s.trace ++ [Event.store s.len] := by
  have hmod : (s.len + 1) % 2^64 = s.len + 1 := by omega
  refine ⟨hmod, ?_, rfl, rfl, rfl⟩
  simp only [pend, store, hmod]
  exact memFirst_store s.buf s.len v

/-- The loop `while(len < lim) buf[len++] = 0;` from `len ≤ lim ≤ 64`. -/
theorem zeroFill_spec (lim fuel : Nat) (s : Sha256) (hlim : lim ≤ 64) (hlen : s.len ≤ lim)
    (hf : lim - s.len ≤ fuel) :
    (zeroFill lim fuel s).len = lim ∧
    pend (zeroFill lim fuel s) = pend s ++ List.replicate (lim - s.len) 0 ∧
    (zeroFill lim fuel s).h = s.h ∧ (zeroFill lim fuel s).bits = s.bits ∧
    (zeroFill lim fuel s).trace
      = s.trace ++ (List.range' s.len (lim - s.len)).map Event.store := by
  induction fuel generalizing s with
  | zero =>
    have h0 : lim - s.len = 0 := by omega
    have : s.len = lim := by omega
    simp [zeroFill, h0, this]
  | succ fuel ih =>
    by_cases hlt : s.len < lim
    · obtain ⟨a1, a2, a3, a4, a5⟩ := store_spec s 0 (by omega)
      obtain ⟨i1, i2, i3, i4, i5⟩ := ih (store s 0) (by omega) (by omega)
      have e : lim - s.len = (lim - (s.len + 1)) + 1 := by omega
      simp only [zeroFill, if_pos hlt]
      refine ⟨i1, ?_, ?_, ?_, ?_⟩
      · rw [i2, a2, a1, e, List.replicate_succ]; simp
      · rw [i3, a3]
      · rw [i4, a4]
      · rw [i5, a5, a1, e, List.range'_succ]; simp
    · have h0 : lim - s.len = 0 := by omega
      have : s.len = lim := by omega
      simp [zeroFill, h0, this]

theorem lengthFold_spec (is : List Nat) (s : Sha256) (hlen : s.len + is.length ≤ 64) :
    (is.foldl (fun t i => store t (UInt8.ofNat ((t.bits >>> (i*8)) &&& 0xff))) s).len
      = s.len + is.length ∧
    pend (is.foldl (fun t i => store t (UInt8.ofNat ((t.bits >>> (i*8)) &&& 0xff))) s)
      = pend s ++ is.map (fun i => UInt8.ofNat ((s.bits >>> (i*8)) &&& 0xff)) ∧
    (is.foldl (fun t i => store t (UInt8.ofNat ((t.bits >>> (i*8)) &&& 0xff))) s).h = s.h ∧
    (is.foldl (fun t i => store t (UInt8.ofNat ((t.bits >>> (i*8)) &&& 0xff))) s).bits
      = s.bits ∧
    (is.foldl (fun t i => store t (UInt8.ofNat ((t.bits >>> (i*8)) &&& 0xff))) s).trace
      = s.trace ++ (List.range' s.len is.length).map Event.store := by
  induction is generalizing s with
  | nil => simp
  | cons i is ih =>
    simp only [List.length_cons] at hlen
    obtain ⟨a1, a2, a3, a4, a5⟩ :=
      store_spec s (UInt8.ofNat ((s.bits >>> (i*8)) &&& 0xff)) (by omega)
    obtain ⟨i1, i2, i3, i4, i5⟩ :=
      ih (store s (UInt8.ofNat ((s.bits >>> (i*8)) &&& 0xff))) (by omega)
    simp only [List.foldl_cons, List.length_cons, List.map_cons]
    refine ⟨?_, ?_, ?_, ?_, ?_⟩
    · rw [i1, a1]; omega
    · rw [i2, a2, a4]; simp
    · rw [i3, a3]
    · rw [i4, a4]
    · rw [i5, a5, a1, List.range'_succ]; simp

/-- The `for(int i=7;i>=0;i--)` loop of `final_hex` from `len = 56`. -/
theorem lengthLoop_spec (s : Sha256) (hlen : s.len = 56) :
    (lengthLoop s).len = 64 ∧ pend (lengthLoop s) = pend s ++ lengthBytes s.bits ∧
    (lengthLoop s).h = s.h ∧ (lengthLoop s).bits = s.bits ∧
    (lengthLoop s).trace = s.trace ++ (List.range' 56 8).map Event.store := by
  obtain ⟨i1, i2, i3, i4, i5⟩ := lengthFold_spec [7, 6, 5, 4, 3, 2, 1, 0] s (by rw [hlen]; simp)
  rw [hlen] at i1 i5
  exact ⟨i1, i2, i3, i4, i5⟩

theorem blocksOf_single (l : List UInt8) (h : l.length = 64) : blocksOf l = [l] := by
  rw [blocksOf_cons l (by omega), List.take_of_length_le (by omega),
    blocksOf_short _ (by simp; omega)]

theorem bufBlock_eq_pend (s : Sha256) (h : s.len = 64) : bufBlock s.buf = pend s := by
  rw [pend, h]; rfl

theorem lengthBytes_length (bits : Nat) : (lengthBytes bits).length = 8 := rfl

theorem padTail_length (len bits : Nat) (hlen : len < 64) :
    (padTail len bits).length = if len ≤ 55 then 64 - len else 128 - len := by
  simp only [padTail, List.length_append, List.length_replicate, lengthBytes_length,
    List.length_singleton]
  split <;> omega

theorem compress_h (s : Sha256) (b : List UInt8) :
    (compress s b).h = compressWords s.h b := by
  simp only [compress]

theorem compress_len (s : Sha256) (b : List UInt8) : (compress s b).len = s.len := by
  simp only [compress]

theorem compress_bits (s : Sha256) (b : List UInt8) : (compress s b).bits = s.bits := by
  simp only [compress]

theorem compress_trace (s : Sha256) (b : List UInt8) :
    (compress s b).trace = s.trace ++ [Event.compress b] := by
  simp only [compress]

/-- The last block of `final_hex`: zero fill to 56, the length bytes, `compress`. -/
theorem lastBlock_spec (t : Sha256) (hlen : t.len ≤ 56) :
    (compress (lengthLoop (zeroFill 56 56 t)) (bufBlock (lengthLoop (zeroFill 56 56 t)).buf)).h
      = compressWords t.h (pend t ++ List.replicate (56 - t.len) 0 ++ lengthBytes t.bits) ∧
    (compress (lengthLoop (zeroFill 56 56 t)) (bufBlock (lengthLoop (zeroFill 56 56 t)).buf)).len
      = 64 ∧
    (compress (lengthLoop (zeroFill 56 56 t)) (bufBlock (lengthLoop (zeroFill 56 56 t)).buf)).bits
      = t.bits ∧
    (compress (lengthLoop (zeroFill 56 56 t))
        (bufBlock (lengthLoop (zeroFill 56 56 t)).buf)).trace
      = t.trace ++ ((List.range' t.len (56 - t.len)).map Event.store ++
          (List.range' 56 8).map Event.store ++
          [Event.compress
            (pend t ++ List.replicate (56 - t.len) 0 ++ lengthBytes t.bits)]) := by
  obtain ⟨z1, z2, z3, z4, z5⟩ := zeroFill_spec 56 56 t (by omega) hlen (by omega)
  obtain ⟨l1, l2, l3, l4, l5⟩ := lengthLoop_spec (zeroFill 56 56 t) z1
  refine ⟨?_, ?_, ?_, ?_⟩
  · rw [compress_h, bufBlock_eq_pend _ l1, l2, l3, z2, z3, z4]
  · rw [compress_len, l1]
  · rw [compress_bits, l4, z4]
  · rw [compress_trace, bufBlock_eq_pend _ l1, l2, l5, z2, z4, z5]
    simp only [List.append_assoc]

/-- The first of two padding blocks of `final_hex`, taken when the marker
leaves fewer than eight free bytes: zero fill to 64, `compress`, `len = 0`. -/
theorem spillBlock_spec (t : Sha256) (hlen : t.len ≤ 64) :
    ({ compress (zeroFill 64 64 t) (bufBlock (zeroFill 64 64 t).buf) with len := 0 } : Sha256).h
      = compressWords t.h (pend t ++ List.replicate (64 - t.len) 0) ∧
    ({ compress (zeroFill 64 64 t) (bufBlock (zeroFill 64 64 t).buf) with len := 0 } : Sha256).len
      = 0 ∧
    ({ compress (zeroFill 64 64 t) (bufBlock (zeroFill 64 64 t).buf) with len := 0 } : Sha256).bits
      = t.bits ∧
    ({ compress (zeroFill 64 64 t) (bufBlock (zeroFill 64 64 t).buf)
          with len := 0 } : Sha256).trace
      = t.trace ++ ((List.range' t.len (64 - t.len)).map Event.store ++
          [Event.compress (pend t ++ List.replicate (64 - t.len) 0)]) := by
  obtain ⟨y1, y2, y3, y4, y5⟩ := zeroFill_spec 64 64 t (by omega) hlen (by omega)
  refine ⟨?_, ?_, ?_, ?_⟩
  · simp only [compress_h]
    rw [bufBlock_eq_pend _ y1, y2, y3]
  · trivial
  · simp only [compress_bits]
    exact y4
  · simp only [compress_trace]
    rw [bufBlock_eq_pend _ y1, y2, y5, List.append_assoc]

theorem final_hex_fst (s : Sha256) :
    (final_hex s).1 = String.join ((final_hex s).2.h.map hex8) := by
  simp only [final_hex]

theorem final_hex_snd (s : Sha256) :
    (final_hex s).2 =
      compress
        (lengthLoop (zeroFill 56 56
          (if (store s 0x80).len > 56 then
            { compress (zeroFill 64 64 (store s 0x80))
                (bufBlock (zeroFill 64 64 (store s 0x80)).buf) with len := 0 }
          else store s 0x80)))
        (bufBlock (lengthLoop (zeroFill 56 56
          (if (store s 0x80).len > 56 then
            { compress (zeroFill 64 64 (store s 0x80))
                (bufBlock (zeroFill 64 64 (store s 0x80)).buf) with len := 0 }
          else store s 0x80))).buf) := by
  simp only [final_hex]

/-- What `final_hex` computes from a state whose buffer is not full: the
accumulator is folded over the blocks of the pending bytes followed by the
padding. -/
theorem final_hex_spec (s : Sha256) (hlen : s.len < 64) :
    (final_hex s).2.h = (blocksOf (pend s ++ padTail s.len s.bits)).foldl compressWords s.h ∧
    (final_hex s).2.len = 64 ∧ (final_hex s).2.bits = s.bits ∧
    ∃ evs, (final_hex s).2.trace = s.trace ++ evs ∧
      compressCount evs = (if s.len ≤ 55 then 1 else 2) := by
  obtain ⟨a1, a2, a3, a4, a5⟩ := store_spec s 0x80 hlen
  rw [final_hex_snd]
  by_cases h55 : s.len ≤ 55
  · have hs2 : ¬ (store s 0x80).len > 56 := by omega
    rw [if_neg hs2, if_pos h55]
    obtain ⟨c1, c2, c3, c4⟩ := lastBlock_spec (store s 0x80) (by omega)
    have hpad : pend s ++ [0x80] ++ List.replicate (56 - (s.len + 1)) (0 : UInt8)
        ++ lengthBytes s.bits = pend s ++ padTail s.len s.bits := by
      have e : 56 - (s.len + 1) = 55 - s.len := by omega
      simp only [padTail, if_pos h55, e, List.append_assoc]
    rw [a1, a2, a3, a4, hpad] at c1
    rw [c1, c2, c3, c4, a4, a5, blocksOf_single _ (by
      rw [List.length_append, pend_length, padTail_length _ _ hlen, if_pos h55]; omega)]
    refine ⟨by simp only [List.foldl_cons, List.foldl_nil], rfl, rfl, _,
      List.append_assoc _ _ _, ?_⟩
    simp only [compressCount_append, compressCount_single_store, compressCount_map_store,
      compressCount_single_compress]
  · have hs2 : (store s 0x80).len > 56 := by omega
    rw [if_pos hs2, if_neg h55]
    obtain ⟨t1, t2, t3, t4⟩ := spillBlock_spec (store s 0x80) (by omega)
    generalize ({ compress (zeroFill 64 64 (store s 0x80))
        (bufBlock (zeroFill 64 64 (store s 0x80)).buf) with len := 0 } : Sha256) = t
      at t1 t2 t3 t4 ⊢
    obtain ⟨c1, c2, c3, c4⟩ := lastBlock_spec t (by omega)
    have hpad : pend s ++ padTail s.len s.bits
        = (pend s ++ [0x80] ++ List.replicate (64 - (s.len + 1)) 0) ++
          ([] ++ List.replicate (56 - 0) (0 : UInt8) ++ lengthBytes s.bits) := by
      have e : 119 - s.len = (64 - (s.len + 1)) + 56 := by omega
      simp only [padTail, if_neg h55, e, List.append_assoc, List.nil_append,
        List.replicate_add, Nat.sub_zero]
    rw [pend_of_len_zero t t2, t2, t1, t3, a1, a2, a3, a4] at c1
    rw [t3, a4] at c3
    rw [t4, a5] at c4
    rw [c1, c2, c3, c4, hpad, blocksOf_append _ _ (by simp [pend_length]; omega),
      blocksOf_single _ (by simp [pend_length]; omega),
      blocksOf_single _ (by simp [lengthBytes_length])]
    refine ⟨by simp only [List.cons_append, List.nil_append, List.foldl_cons, List.foldl_nil],
      rfl, rfl, _, by simp only [List.append_assoc]; rfl, ?_⟩
    simp only [compressCount_append, compressCount_single_store, compressCount_map_store,
      compressCount_single_compress]

theorem digitChar_mem_hexChars (d : Nat) (h : d < 16) : Nat.digitChar d ∈ hexChars := by
  interval_cases d <;> decide

theorem hexVal_digitChar (d : Nat) (h : d < 16) : hexVal (Nat.digitChar d) = d := by
  interval_cases d <;> decide

theorem hexFixed_length (w n : Nat) : (hexFixed w n).length = w := by
  induction w generalizing n with
  | zero => rfl
  | succ w ih => simp [hexFixed, ih]

theorem hexFixed_mem (w n : Nat) : ∀ c ∈ hexFixed w n, c ∈ hexChars := by
  induction w generalizing n with
  | zero => intro c hc; simp [hexFixed] at hc
  | succ w ih =>
    intro c hc
    simp only [hexFixed, List.mem_append, List.mem_singleton] at hc
    rcases hc with hc | hc
    · exact ih _ c hc
    · rw [hc]; exact digitChar_mem_hexChars _ (Nat.mod_lt _ (by decide))

theorem hexFixed_zero (w : Nat) : hexFixed w 0 = List.replicate w '0' := by
  induction w with
  | zero => rfl
  | succ w ih =>
    rw [hexFixed, Nat.zero_div, ih, List.replicate_succ']
    rfl

theorem parseHex_append_singleton (cs : List Char) (c : Char) :
    parseHex (cs ++ [c]) = 16 * parseHex cs + hexVal c := by
  simp [parseHex, List.foldl_append]

/-- Reading back the `w` digits of `n` gives `n` modulo `16^w`. -/
theorem parseHex_hexFixed (w n : Nat) : parseHex (hexFixed w n) = n % 16^w := by
  induction w generalizing n with
  | zero => simp [hexFixed, parseHex, Nat.mod_one]
  | succ w ih =>
    rw [hexFixed, parseHex_append_singleton, ih, hexVal_digitChar _ (Nat.mod_lt _ (by decide)),
      Nat.pow_succ, Nat.mul_comm (16^w) 16, Nat.mod_mul]
    omega

theorem toDigitsCore_acc (fuel n : Nat) (ds : List Char) :
    Nat.toDigitsCore 16 fuel n ds = Nat.toDigitsCore 16 fuel n [] ++ ds := by
  induction fuel generalizing n ds with
  | zero => simp [Nat.toDigitsCore]
  | succ fuel ih =>
    simp only [Nat.toDigitsCore]
    split
    · simp
    · rw [ih _ (Nat.digitChar (n % 16) :: ds), ih _ [Nat.digitChar (n % 16)]]
      simp

/-- The digits printed by the stream, left-padded with `'0'` to width `w`, are
the `w` fixed digits, for a value that fits in `w` digits. -/
theorem pad_toDigitsCore (w n fuel : Nat) (hn : n < 16^(w+1)) (hf : n < fuel) :
    List.replicate (w + 1 - (Nat.toDigitsCore 16 fuel n []).length) '0'
      ++ Nat.toDigitsCore 16 fuel n [] = hexFixed (w+1) n := by
  induction w generalizing n fuel with
  | zero =>
    obtain ⟨f, rfl⟩ : ∃ f, fuel = f + 1 := ⟨fuel - 1, by omega⟩
    have h0 : n / 16 = 0 := by omega
    have h1 : n % 16 = n := by omega
    simp [Nat.toDigitsCore, h0, hexFixed]
  | succ w ih =>
    obtain ⟨f, rfl⟩ : ∃ f, fuel = f + 1 := ⟨fuel - 1, by omega⟩
    by_cases h0 : n / 16 = 0
    · simp only [Nat.toDigitsCore, h0, if_true, List.length_singleton]
      rw [hexFixed, h0, hexFixed_zero]
      simp
    · have hlt : n / 16 < 16^(w+1) := by
        rw [Nat.div_lt_iff_lt_mul (by decide)]
        rw [Nat.pow_succ] at hn
        exact hn
      have hf2 : n / 16 < f := by omega
      have := ih (n / 16) f hlt hf2
      simp only [Nat.toDigitsCore, h0, if_false]
      rw [toDigitsCore_acc, hexFixed, ← this]
      simp only [List.length_append, List.length_singleton, List.append_assoc]
      congr 2
      omega

/-- The stream output of a `uint32_t` value is its eight fixed hex digits. -/
theorem hex8_eq (v : Nat) (hv : v < 2^32) : hex8 v = String.mk (hexFixed 8 v) := by
  have := pad_toDigitsCore 7 v (v+1) (by omega) (by omega)
  simp only [hex8, Nat.toDigits]
  rw [← this]

/-- The accumulator after `compress` has eight words, each below `2^32`. -/
theorem compressWords_shape (h : List Nat) (block : List UInt8) :
    (compressWords h block).length = 8 ∧ ∀ w ∈ compressWords h block, w < 2^32 := by
  constructor
  · simp only [compressWords, List.length_cons, List.length_nil]
  · intro w hw
    simp only [compressWords, List.mem_cons, List.mem_singleton, List.mem_nil_iff,
      or_false] at hw
    have hpos : 0 < 2^32 := by decide
    rcases hw with hw | hw | hw | hw | hw | hw | hw | hw <;>
      (rw [hw]; exact Nat.mod_lt _ hpos)

theorem toNat_ofNat_mod (n : Nat) : (UInt8.ofNat (n % 256)).toNat = n % 256 :=
  UInt8.toNat_ofNat_of_lt (Nat.mod_lt _ (by decide))

/-- The eight fixed hex digits of a word are the hex digits of its four
big-endian bytes. -/
theorem hexFixed_eq_bytes (v : Nat) : hexFixed 8 v = ((be32 v).map hexByte).flatten := by
  have e1 : v / 16 / 16 / 16 / 16 / 16 / 16 / 16 % 16 = v / 256^3 % 256 / 16 := by
    norm_num; omega
  have e2 : v / 16 / 16 / 16 / 16 / 16 / 16 % 16 = v / 256^3 % 256 % 16 := by
    norm_num; omega
  have e3 : v / 16 / 16 / 16 / 16 / 16 % 16 = v / 256^2 % 256 / 16 := by
    norm_num; omega
  have e4 : v / 16 / 16 / 16 / 16 % 16 = v / 256^2 % 256 % 16 := by
    norm_num; omega
  have e5 : v / 16 / 16 / 16 % 16 = v / 256^1 % 256 / 16 := by
    norm_num; omega
  have e6 : v / 16 / 16 % 16 = v / 256^1 % 256 % 16 := by
    norm_num; omega
  have e7 : v / 16 % 16 = v / 256^0 % 256 / 16 := by
    norm_num; omega
  have e8 : v % 16 = v / 256^0 % 256 % 16 := by
    norm_num
  simp only [hexFixed, be32, hexByte, List.map_cons, List.map_nil, List.flatten_cons,
    List.flatten_nil, toNat_ofNat_mod, List.nil_append, List.cons_append, List.append_nil,
    List.singleton_append, e1, e2, e3, e4, e5, e6, e7, e8]

/-- The rendering of `final_hex` is the hex encoding of the big-endian bytes
of the words, when every word fits in 32 bits. -/
theorem join_hex8_eq (h : List Nat) (hh : ∀ w ∈ h, w < 2^32) :
    String.join (h.map hex8) = hexEncode (h.map be32).flatten := by
  apply String.ext
  rw [String.data_join, hexEncode]
  induction h with
  | nil => rfl
  | cons w h ih =>
    have hw : w < 2^32 := hh w (List.mem_cons_self _ _)
    have ih' := ih (fun x hx => hh x (List.mem_cons_of_mem _ hx))
    simp only [List.map_cons, List.flatten_cons, List.map_append, List.flatten_append] at ih' ⊢
    rw [ih', hex8_eq w hw, hexFixed_eq_bytes]

theorem join_hex8_data (h : List Nat) (hh : ∀ w ∈ h, w < 2^32) :
    (String.join (h.map hex8)).data = (h.map (hexFixed 8)).flatten := by
  rw [String.data_join]
  induction h with
  | nil => rfl
  | cons w h ih =>
    have hw : w < 2^32 := hh w (List.mem_cons_self _ _)
    have ih' := ih (fun x hx => hh x (List.mem_cons_of_mem _ hx))
    simp only [List.map_cons, List.flatten_cons] at ih' ⊢
    rw [ih', hex8_eq w hw]

/-- In a concatenation of 8-character groups, characters `8i..8i+7` are the
`i`-th group. -/
theorem group_of_flatten (ws : List Nat) (i : Nat) (hi : i < ws.length) :
    (((ws.map (hexFixed 8)).flatten).drop (8 * i)).take 8 = hexFixed 8 (ws.getD i 0) := by
  induction ws generalizing i with
  | nil => simp at hi
  | cons w ws ih =>
    cases i with
    | zero =>
      simp only [List.map_cons, List.flatten_cons, Nat.mul_zero, List.drop_zero,
        List.getD_cons_zero]
      rw [List.take_append_of_le_length (by rw [hexFixed_length]),
        List.take_of_length_le (by rw [hexFixed_length])]
    | succ i =>
      simp only [List.length_cons] at hi
      simp only [List.map_cons, List.flatten_cons, List.getD_cons_succ]
      have e : 8 * (i + 1) = (hexFixed 8 w).length + 8 * i := by
        rw [hexFixed_length]; omega
      rw [e, List.drop_append]
      exact ih i (by omega)

theorem flatten_hexFixed_length (ws : List Nat) :
    ((ws.map (hexFixed 8)).flatten).length = 8 * ws.length := by
  induction ws with
  | nil => rfl
  | cons w ws ih =>
    simp only [List.map_cons, List.flatten_cons, List.length_append, hexFixed_length,
      List.length_cons, ih]
    omega

theorem flatten_hexFixed_mem (ws : List Nat) :
    ∀ c ∈ (ws.map (hexFixed 8)).flatten, c ∈ hexChars := by
  intro c hc
  simp only [List.mem_flatten, List.mem_map] at hc
  obtain ⟨l, ⟨w, _, rfl⟩, hcl⟩ := hc
  exact hexFixed_mem 8 w c hcl

theorem padZeros_eq (n : Nat) :
    padZeros n = if n % 64 ≤ 55 then 55 - n % 64 else 119 - n % 64 := by
  rw [padZeros, Nat.find_eq_iff]
  split
  · exact ⟨by omega, fun k hk => by omega⟩
  · exact ⟨by omega, fun k hk => by omega⟩

/-- The bytes stored by the length loop are the 8-byte big-endian encoding. -/
theorem lengthBytes_eq_be64 (n : Nat) : lengthBytes n = be64 n := by
  have hand : ∀ x : Nat, x &&& 0xff = x % 256 := fun x => Nat.and_pow_two_sub_one_eq_mod x 8
  simp only [lengthBytes, be64, hand, Nat.shiftRight_eq_div_pow, List.map_cons, List.map_nil]
  norm_num

theorem padTail_eq_spec (n : Nat) :
    padTail (n % 64) (8 * n)
      = [0x80] ++ List.replicate (padZeros n) 0 ++ be64 (8 * n) := by
  rw [padTail, padZeros_eq, lengthBytes_eq_be64]

/-- The digest depends on the state only through the accumulator, the bit
counter and the pending bytes. -/
theorem final_hex_congr (s1 s2 : Sha256) (hlen : s1.len < 64) (hh : s1.h = s2.h)
    (hb : s1.bits = s2.bits) (hl : s1.len = s2.len) (hp : pend s1 = pend s2) :
    (final_hex s1).1 = (final_hex s2).1 := by
  obtain ⟨a1, _⟩ := final_hex_spec s1 hlen
  obtain ⟨b1, _⟩ := final_hex_spec s2 (by omega)
  rw [final_hex_fst, final_hex_fst, a1, b1, hh, hb, hl, hp]

/-- An `update` split in two. -/
theorem update_append (s : Sha256) (a b : List UInt8) (hlen : s.len < 64) :
    (update (update s a) b).h = (update s (a ++ b)).h ∧
    (update (update s a) b).len = (update s (a ++ b)).len ∧
    (update (update s a) b).bits = (update s (a ++ b)).bits ∧
    pend (update (update s a) b) = pend (update s (a ++ b)) := by
  obtain ⟨a1, a2, a3, _⟩ := update_spec s a hlen
  have hlen2 : (update s a).len < 64 := by rw [a2]; exact Nat.mod_lt _ (by decide)
  obtain ⟨b1, b2, b3, _⟩ := update_spec (update s a) b hlen2
  obtain ⟨c1, c2, c3, _⟩ := update_spec s (a ++ b) hlen
  have hpl : (pend s ++ a).length = s.len + a.length := by
    rw [List.length_append, pend_length]
  refine ⟨?_, ?_, ?_, ?_⟩
  · rw [b1, c1, a1, a3, ← List.append_assoc, blocksOf_append_rem (pend s ++ a) b,
      List.foldl_append, hpl]
  · rw [b2, c2, a2, List.length_append]; omega
  · rw [update_bits, update_bits, update_bits, List.length_append]; omega
  · rw [b3, c3, a3, a2, List.length_append, ← List.append_assoc]
    have e : (s.len + (a.length + b.length)) / 64 * 64
        = (s.len + a.length) / 64 * 64 + ((s.len + a.length) % 64 + b.length) / 64 * 64 := by
      omega
    have e2 : (pend s ++ a ++ b).drop ((s.len + a.length) / 64 * 64)
        = (pend s ++ a).drop ((s.len + a.length) / 64 * 64) ++ b :=
      List.drop_append_of_le_length (by rw [hpl]; omega)
    rw [e, ← List.drop_drop, e2]

/-- States that agree on what `update` and `final_hex` read stay in agreement
under `update`. -/
theorem update_congr (s1 s2 : Sha256) (d : List UInt8) (hlen : s1.len < 64)
    (hh : s1.h = s2.h) (hb : s1.bits = s2.bits) (hl : s1.len = s2.len)
    (hp : pend s1 = pend s2) :
    (update s1 d).h = (update s2 d).h ∧ (update s1 d).bits = (update s2 d).bits ∧
    (update s1 d).len = (update s2 d).len ∧ pend (update s1 d) = pend (update s2 d) := by
  obtain ⟨a1, a2, a3, _⟩ := update_spec s1 d hlen
  obtain ⟨b1, b2, b3, _⟩ := update_spec s2 d (by omega)
  refine ⟨?_, ?_, ?_, ?_⟩
  · rw [a1, b1, hh, hp]
  · rw [update_bits, update_bits, hb]
  · rw [a2, b2, hl]
  · rw [a3, b3, hl, hp]

theorem update_len_lt (s : Sha256) (d : List UInt8) (hlen : s.len < 64) :
    (update s d).len < 64 := by
  obtain ⟨_, a2, _⟩ := update_spec s d hlen
  rw [a2]; exact Nat.mod_lt _ (by decide)

theorem update_nil_agree (s : Sha256) (hlen : s.len < 64) (hbits : s.bits < 2^64) :
    (update s []).h = s.h ∧ (update s []).bits = s.bits ∧ (update s []).len = s.len ∧
    pend (update s []) = pend s := by
  obtain ⟨a1, a2, a3, _⟩ := update_spec s [] hlen
  have h0 : s.len / 64 = 0 := by omega
  refine ⟨?_, ?_, ?_, ?_⟩
  · rw [a1, List.append_nil, blocksOf_short _ (by rw [pend_length]; exact hlen)]; rfl
  · rw [update_bits]; simp only [List.length_nil]; omega
  · rw [a2]; simp only [List.length_nil]; omega
  · rw [a3]; simp only [List.length_nil, Nat.add_zero, h0, List.append_nil]; rfl

/-- Feeding chunks one by one agrees with one `update` on their concatenation. -/
theorem foldl_update_agree (chunks : List (List UInt8)) (s : Sha256) (hlen : s.len < 64)
    (hbits : s.bits < 2^64) :
    (chunks.foldl update s).h = (update s chunks.flatten).h ∧
    (chunks.foldl update s).bits = (update s chunks.flatten).bits ∧
    (chunks.foldl update s).len = (update s chunks.flatten).len ∧
    pend (chunks.foldl update s) = pend (update s chunks.flatten) := by
  induction chunks generalizing s with
  | nil =>
    obtain ⟨a1, a2, a3, a4⟩ := update_nil_agree s hlen hbits
    exact ⟨a1.symm, a2.symm, a3.symm, a4.symm⟩
  | cons c cs ih =>
    have hb : (update s c).bits < 2^64 := by
      rw [update_bits]; exact Nat.mod_lt _ (by decide)
    obtain ⟨i1, i2, i3, i4⟩ := ih (update s c) (update_len_lt s c hlen) hb
    obtain ⟨u1, u2, u3, u4⟩ := update_append s c cs.flatten hlen
    simp only [List.foldl_cons, List.flatten_cons]
    exact ⟨i1.trans u1, i2.trans u3, i3.trans u2, i4.trans u4⟩

/-- The trace after feeding chunks extends the trace before, by events of
which `⌊(len + total)/64⌋` are `compress` calls. -/
theorem foldl_update_trace (chunks : List (List UInt8)) (s : Sha256) (hlen : s.len < 64) :
    ∃ evs, (chunks.foldl update s).trace = s.trace ++ evs ∧
      compressCount evs = (s.len + chunks.flatten.length) / 64 := by
  induction chunks generalizing s with
  | nil =>
    refine ⟨[], by simp, ?_⟩
    have h0 : s.len / 64 = 0 := by omega
    simp [compressCount, h0]
  | cons c cs ih =>
    obtain ⟨_, a2, _, e1, t1, n1⟩ := update_spec s c hlen
    obtain ⟨e2, t2, n2⟩ := ih (update s c) (update_len_lt s c hlen)
    refine ⟨e1 ++ e2, ?_, ?_⟩
    · simp only [List.foldl_cons]
      rw [t2, t1, List.append_assoc]
    · rw [compressCount_append, n1, n2, a2]
      simp only [List.flatten_cons, List.length_append]
      omega

theorem final_hex_h_shape (s : Sha256) :
    (final_hex s).2.h.length = 8 ∧ ∀ w ∈ (final_hex s).2.h, w < 2^32 := by
  rw [final_hex_snd, compress_h]
  exact compressWords_shape _ _

theorem foldl_update_len_lt (chunks : List (List UInt8)) (s : Sha256) (hlen : s.len < 64) :
    (chunks.foldl update s).len < 64 := by
  induction chunks generalizing s with
  | nil => exact hlen
  | cons c cs ih => exact ih (update s c) (update_len_lt s c hlen)

theorem foldl_update_bits (chunks : List (List UInt8)) (s : Sha256) (hbits : s.bits < 2^64) :
    (chunks.foldl update s).bits = (s.bits + 8 * chunks.flatten.length) % 2^64 := by
  induction chunks generalizing s with
  | nil => simp only [List.foldl_nil, List.flatten_nil, List.length_nil]; omega
  | cons c cs ih =>
    have hb : (update s c).bits < 2^64 := by
      rw [update_bits]; exact Nat.mod_lt _ (by decide)
    simp only [List.foldl_cons, List.flatten_cons, List.length_append]
    rw [ih (update s c) hb, update_bits]
    omega

theorem fresh_len : Sha256.fresh.len = 0 := rfl

theorem fresh_bits : Sha256.fresh.bits = 0 := rfl

theorem fresh_trace : Sha256.fresh.trace = [] := rfl

theorem digest_isDigest (h : List Nat) (hl : h.length = 8) (hh : ∀ w ∈ h, w < 2^32) :
    IsDigest (String.join (h.map hex8)) := by
  constructor
  · show (String.join (h.map hex8)).data.length = 64
    rw [join_hex8_data h hh, flatten_hexFixed_length, hl]
  · rw [join_hex8_data h hh]
    exact flatten_hexFixed_mem h

/-! ## The claims -/

/-- The digest of a message below the length bound is the rendering of the
accumulator folded over the blocks of the padded message. -/
theorem digest_eq_padded_fold (m : List UInt8) (hm : 8 * m.length < 2^64) :
    (final_hex (update Sha256.fresh m)).1
      = hexEncode (((blocksOf (pad m)).foldl compressWords Sha256.fresh.h).map be32).flatten := by
  have hf : Sha256.fresh.len < 64 := by rw [fresh_len]; decide
  obtain ⟨u1, u2, u3, _⟩ := update_spec Sha256.fresh m hf
  have ub := update_bits Sha256.fresh m
  rw [fresh_bits, Nat.zero_add, Nat.mod_eq_of_lt hm] at ub
  rw [fresh_len, Nat.zero_add] at u2 u3
  rw [pend_of_len_zero _ fresh_len, List.nil_append] at u1 u3
  obtain ⟨f1, _⟩ := final_hex_spec (update Sha256.fresh m) (update_len_lt _ _ hf)
  have hs := final_hex_h_shape (update Sha256.fresh m)
  rw [final_hex_fst, join_hex8_eq _ hs.2, f1, u1, u2, u3, ub, pad,
    ← List.foldl_append, ← blocksOf_append_rem, padTail_eq_spec]
  simp only [List.append_assoc]

/-- C2: chunking invariance.  Feeding the chunks of any split of a message
one `update` at a time gives the same digest as one `update` on the whole
message; and from any state with `len < 64`, `update(a)` then `update(b)`
agrees with `update(a ++ b)` on `h`, `len`, `bits` and the pending bytes. -/
theorem chunking_invariance :
    (∀ chunks : List (List UInt8),
      (final_hex (chunks.foldl update Sha256.fresh)).1
        = (final_hex (update Sha256.fresh chunks.flatten)).1) ∧
    (∀ (s : Sha256) (a b : List UInt8), s.len < 64 →
      (update (update s a) b).h = (update s (a ++ b)).h ∧
      (update (update s a) b).len = (update s (a ++ b)).len ∧
      (update (update s a) b).bits = (update s (a ++ b)).bits ∧
      pend (update (update s a) b) = pend (update s (a ++ b))) := by
  constructor
  · intro chunks
    have hf : Sha256.fresh.len < 64 := by rw [fresh_len]; decide
    have hb : Sha256.fresh.bits < 2^64 := by rw [fresh_bits]; decide
    obtain ⟨a1, a2, a3, a4⟩ := foldl_update_agree chunks Sha256.fresh hf hb
    exact final_hex_congr _ _ (foldl_update_len_lt chunks _ hf) a1 a2 a3 a4
  · intro s a b hlen
    exact update_append s a b hlen

/-- Witness for C2: "abc" fed as `a`, nothing, `bc`; and a split update on
the fresh state. -/
theorem chunking_invariance_witness :
    (final_hex ([[(0x61 : UInt8)], [], [0x62, 0x63]].foldl update Sha256.fresh)).1
      = (final_hex (update Sha256.fresh [[(0x61 : UInt8)], [], [0x62, 0x63]].flatten)).1 ∧
    Sha256.fresh.len < 64 ∧
    pend (update (update Sha256.fresh [0x61]) [0x62, 0x63])
      = pend (update Sha256.fresh ([0x61] ++ [0x62, 0x63])) :=
  ⟨chunking_invariance.1 _, by decide,
    (chunking_invariance.2 Sha256.fresh [0x61] [0x62, 0x63] (by decide)).2.2.2⟩

/-- C3: a fresh `Sha256` finalised with no bytes fed, or after an `update`
with the empty sequence, yields the published SHA-256 digest of the empty
message. -/
theorem final_hex_empty :
    (final_hex Sha256.fresh).1
        = "e3b0c44298fc1c149afbf4c8996fb92427ae41e4649b934ca495991b7852b855" ∧
    (final_hex (update Sha256.fresh [])).1
        = "e3b0c44298fc1c149afbf4c8996fb92427ae41e4649b934ca495991b7852b855" := by
  decide!

/-- C4: a fresh `Sha256` fed the three bytes `0x61 0x62 0x63` and finalised
yields the published SHA-256 digest of "abc". -/
theorem final_hex_abc :
    (final_hex (update Sha256.fresh [0x61, 0x62, 0x63])).1
        = "ba7816bf8f01cfea414140de5dae2223b00361a396177a9cb410ff61f20015ad" := by
  decide!

/-- C5: digest shape.  From every state with `len < 64`, and so from every
state reached from a fresh one by `update` calls, `final_hex` returns exactly
64 characters, each one of `0-9a-f`. -/
theorem final_hex_shape :
    (∀ s : Sha256, s.len < 64 → IsDigest (final_hex s).1) ∧
    (∀ chunks : List (List UInt8),
      (chunks.foldl update Sha256.fresh).len < 64 ∧
      IsDigest (final_hex (chunks.foldl update Sha256.fresh)).1) := by
  have key : ∀ s : Sha256, IsDigest (final_hex s).1 := by
    intro s
    obtain ⟨h1, h2⟩ := final_hex_h_shape s
    rw [final_hex_fst]
    exact digest_isDigest _ h1 h2
  refine ⟨fun s _ => key s, fun chunks => ⟨?_, key _⟩⟩
  exact foldl_update_len_lt chunks _ (by rw [fresh_len]; decide)

/-- Witness for C5 on the fresh state. -/
theorem final_hex_shape_witness :
    Sha256.fresh.len < 64 ∧ IsDigest (final_hex Sha256.fresh).1 :=
  ⟨by decide, final_hex_shape.1 Sha256.fresh (by decide)⟩

/-- C6: digest encoding.  The string returned by `final_hex` is the hex
encoding of the 32 bytes made of the eight final accumulator words, 4
big-endian bytes each; characters `8i..8i+7` are the zero-padded 8-digit
lowercase hex of `h[i]`, and reading them back as a number gives `h[i]`. -/
theorem final_hex_encoding (s : Sha256) :
    (final_hex s).2.h.length = 8 ∧
    (final_hex s).1 = hexEncode ((final_hex s).2.h.map be32).flatten ∧
    (∀ i, i < 8 →
      ((final_hex s).1.data.drop (8 * i)).take 8 = hexFixed 8 ((final_hex s).2.h.getD i 0) ∧
      parseHex (((final_hex s).1.data.drop (8 * i)).take 8) = (final_hex s).2.h.getD i 0) := by
  obtain ⟨h1, h2⟩ := final_hex_h_shape s
  refine ⟨h1, ?_, ?_⟩
  · rw [final_hex_fst, join_hex8_eq _ h2]
  · intro i hi
    have hg : ((final_hex s).1.data.drop (8 * i)).take 8
        = hexFixed 8 ((final_hex s).2.h.getD i 0) := by
      rw [final_hex_fst, join_hex8_data _ h2]
      exact group_of_flatten _ i (by omega)
    refine ⟨hg, ?_⟩
    rw [hg, parseHex_hexFixed]
    have hw : (final_hex s).2.h.getD i 0 < 2^32 := by
      rw [List.getD_eq_getElem _ _ (by omega)]
      exact h2 _ (List.getElem_mem _)
    exact Nat.mod_eq_of_lt hw

/-- Witness for C6 on the fresh state, first word. -/
theorem final_hex_encoding_witness :
    0 < 8 ∧
    parseHex (((final_hex Sha256.fresh).1.data.drop (8 * 0)).take 8)
      = (final_hex Sha256.fresh).2.h.getD 0 0 :=
  ⟨by decide, ((final_hex_encoding Sha256.fresh).2.2 0 (by decide)).2⟩

/-- C7: for every state and every byte sequence, `update` sets `bits` to
`bits + 8 * length(data)` in unsigned 64-bit arithmetic, whatever `len` is and
however many blocks the call completes; so after updates on a fresh state
totalling `N` bytes with `8N < 2^64`, `bits = 8N`. -/
theorem update_bits_counter :
    (∀ (s : Sha256) (data : List UInt8),
      (update s data).bits = (s.bits + 8 * data.length) % 2^64) ∧
    (∀ chunks : List (List UInt8), 8 * chunks.flatten.length < 2^64 →
      (chunks.foldl update Sha256.fresh).bits = 8 * chunks.flatten.length) := by
  refine ⟨update_bits, fun chunks hN => ?_⟩
  rw [foldl_update_bits chunks _ (by rw [fresh_bits]; decide), fresh_bits, Nat.zero_add,
    Nat.mod_eq_of_lt hN]

/-- Witness for C7: "abc" fed as `a` then `bc`. -/
theorem update_bits_counter_witness :
    8 * [[(0x61 : UInt8)], [0x62, 0x63]].flatten.length < 2^64 ∧
    ([[(0x61 : UInt8)], [0x62, 0x63]].foldl update Sha256.fresh).bits
      = 8 * [[(0x61 : UInt8)], [0x62, 0x63]].flatten.length :=
  ⟨by decide, update_bits_counter.2 [[0x61], [0x62, 0x63]] (by decide)⟩

/-- C8, as stated, fails: after `2^61 - 1` bytes the counter is `2^64 - 8`,
and one more byte wraps it to `0`, which is smaller than before and is not
8 times the `2^61` bytes fed. -/
theorem bits_wraps_counterexample :
    ¬ ((update (update Sha256.fresh (List.replicate (2^61 - 1) 0)) [0]).bits
        ≥ (update Sha256.fresh (List.replicate (2^61 - 1) 0)).bits) ∧
    (update (update Sha256.fresh (List.replicate (2^61 - 1) 0)) [0]).bits
      ≠ 8 * ((List.replicate (2^61 - 1) (0 : UInt8)).length + [(0 : UInt8)].length) := by
  have h1 : (update Sha256.fresh (List.replicate (2^61 - 1) 0)).bits = 2^64 - 8 := by
    rw [update_bits, fresh_bits, List.length_replicate]; decide
  have h2 : (update (update Sha256.fresh (List.replicate (2^61 - 1) 0)) [0]).bits = 0 := by
    rw [update_bits, h1, List.length_singleton]; decide
  constructor
  · rw [h1, h2]; decide
  · rw [h2, List.length_replicate, List.length_singleton]; decide

/-- C8, amended: as long as the 64-bit counter does not wrap, `update` does
not decrease it and adds `8 * length(data)`; after updates on a fresh state
totalling `N` bytes with `8N < 2^64` it equals `8N`. -/
theorem bits_monotone_below_wrap :
    (∀ (s : Sha256) (data : List UInt8), s.bits + 8 * data.length < 2^64 →
      (update s data).bits ≥ s.bits ∧ (update s data).bits = s.bits + 8 * data.length) ∧
    (∀ chunks : List (List UInt8), 8 * chunks.flatten.length < 2^64 →
      (chunks.foldl update Sha256.fresh).bits = 8 * chunks.flatten.length) := by
  constructor
  · intro s data hlt
    rw [update_bits, Nat.mod_eq_of_lt hlt]
    exact ⟨Nat.le_add_right _ _, rfl⟩
  · intro chunks hN
    rw [foldl_update_bits chunks _ (by rw [fresh_bits]; decide), fresh_bits, Nat.zero_add,
      Nat.mod_eq_of_lt hN]

/-- Witness for the amended C8: three bytes into a fresh state, and two chunks. -/
theorem bits_monotone_below_wrap_witness :
    (Sha256.fresh.bits + 8 * [(0x61 : UInt8), 0x62, 0x63].length < 2^64 ∧
      (update Sha256.fresh [0x61, 0x62, 0x63]).bits ≥ Sha256.fresh.bits) ∧
    (8 * [[(0x61 : UInt8)], [0x62, 0x63]].flatten.length < 2^64 ∧
      ([[(0x61 : UInt8)], [0x62, 0x63]].foldl update Sha256.fresh).bits
        = 8 * [[(0x61 : UInt8)], [0x62, 0x63]].flatten.length) :=
  ⟨⟨by decide, (bits_monotone_below_wrap.1 Sha256.fresh [0x61, 0x62, 0x63] (by decide)).1⟩,
    ⟨by decide, bits_monotone_below_wrap.2 [[0x61], [0x62, 0x63]] (by decide)⟩⟩

/-- C9: pending-buffer invariant.  A fresh state has `len = 0`; from every
state with `len < 64`, `update` leaves `len = (len + length(data)) mod 64`,
which is below 64; after feeding `N` bytes to a fresh state, `len = N mod 64`. -/
theorem update_len_invariant :
    Sha256.fresh.len = 0 ∧
    (∀ (s : Sha256) (data : List UInt8), s.len < 64 →
      (update s data).len = (s.len + data.length) % 64 ∧ (update s data).len < 64) ∧
    (∀ chunks : List (List UInt8),
      (chunks.foldl update Sha256.fresh).len = chunks.flatten.length % 64) := by
  have hf : Sha256.fresh.len < 64 := by rw [fresh_len]; decide
  refine ⟨fresh_len, fun s data hlen => ?_, fun chunks => ?_⟩
  · obtain ⟨_, a2, _⟩ := update_spec s data hlen
    exact ⟨a2, update_len_lt s data hlen⟩
  · obtain ⟨_, _, a3, _⟩ := foldl_update_agree chunks Sha256.fresh hf
      (by rw [fresh_bits]; decide)
    obtain ⟨_, u2, _⟩ := update_spec Sha256.fresh chunks.flatten hf
    rw [a3, u2, fresh_len, Nat.zero_add]

/-- Witness for C9: 70 bytes into a fresh state leave 6 pending. -/
theorem update_len_invariant_witness :
    Sha256.fresh.len < 64 ∧
    (update Sha256.fresh (List.replicate 70 0)).len
      = (Sha256.fresh.len + (List.replicate 70 (0 : UInt8)).length) % 64 :=
  ⟨by decide, (update_len_invariant.2.1 Sha256.fresh (List.replicate 70 0) (by decide)).1⟩

/-- C10: compression count.  Hashing `L` bytes from a fresh state, in any
chunking, calls `compress` `⌊L/64⌋` times inside the `update` calls, then
inside `final_hex` once when `L mod 64 ≤ 55` and twice when `L mod 64 ≥ 56`:
`⌈(L+9)/64⌉` calls in total. -/
theorem compress_call_count (chunks : List (List UInt8)) :
    ∃ evU evF : List Event,
      (chunks.foldl update Sha256.fresh).trace = evU ∧
      (final_hex (chunks.foldl update Sha256.fresh)).2.trace = evU ++ evF ∧
      compressCount evU = chunks.flatten.length / 64 ∧
      compressCount evF = (if chunks.flatten.length % 64 ≤ 55 then 1 else 2) ∧
      compressCount (final_hex (chunks.foldl update Sha256.fresh)).2.trace
        = (chunks.flatten.length + 9 + 63) / 64 := by
  have hf : Sha256.fresh.len < 64 := by rw [fresh_len]; decide
  obtain ⟨evU, t1, n1⟩ := foldl_update_trace chunks Sha256.fresh hf
  rw [fresh_trace, List.nil_append] at t1
  rw [fresh_len, Nat.zero_add] at n1
  have hlen := foldl_update_len_lt chunks Sha256.fresh hf
  obtain ⟨_, _, _, evF, t2, n2⟩ := final_hex_spec (chunks.foldl update Sha256.fresh) hlen
  obtain ⟨_, _, a3, _⟩ := foldl_update_agree chunks Sha256.fresh hf
    (by rw [fresh_bits]; decide)
  obtain ⟨_, u2, _⟩ := update_spec Sha256.fresh chunks.flatten hf
  rw [a3, u2, fresh_len, Nat.zero_add] at n2
  refine ⟨evU, evF, t1, by rw [t2, t1], n1, n2, ?_⟩
  rw [t2, t1, compressCount_append, n1, n2]
  split <;> omega

/-! ## Traces of `update` and `final_hex` -/

theorem compressedBlocks_append (a b : List Event) :
    compressedBlocks (a ++ b) = compressedBlocks a ++ compressedBlocks b := by
  induction a with
  | nil => rfl
  | cons e a ih => cases e <;> simp [compressedBlocks, ih]

theorem storeIndices_append (a b : List Event) :
    storeIndices (a ++ b) = storeIndices a ++ storeIndices b := by
  induction a with
  | nil => rfl
  | cons e a ih => cases e <;> simp [storeIndices, ih]

theorem compressedBlocks_map_store (l : List Nat) :
    compressedBlocks (l.map Event.store) = [] := by
  induction l with
  | nil => rfl
  | cons a l ih => simp [compressedBlocks, ih]

theorem storeIndices_map_store (l : List Nat) : storeIndices (l.map Event.store) = l := by
  induction l with
  | nil => rfl
  | cons a l ih => simp [storeIndices, ih]

theorem compressedBlocks_single_store (i : Nat) :
    compressedBlocks [Event.store i] = [] := rfl

theorem compressedBlocks_single_compress (b : List UInt8) :
    compressedBlocks [Event.compress b] = [b] := rfl

theorem storeIndices_single_store (i : Nat) : storeIndices [Event.store i] = [i] := rfl

theorem storeIndices_single_compress (b : List UInt8) :
    storeIndices [Event.compress b] = [] := rfl

theorem inBounds_map_store (l : List Nat) (hl : ∀ i ∈ l, i < 64) :
    ∀ e ∈ l.map Event.store, e.inBounds = true := by
  intro e he
  obtain ⟨i, hi, rfl⟩ := List.mem_map.mp he
  simp [Event.inBounds, hl i hi]

theorem inBounds_append (a b : List Event) (ha : ∀ e ∈ a, e.inBounds = true)
    (hb : ∀ e ∈ b, e.inBounds = true) : ∀ e ∈ a ++ b, e.inBounds = true := by
  intro e he
  rcases List.mem_append.mp he with he | he
  · exact ha e he
  · exact hb e he

theorem inBounds_single_store (i : Nat) (hi : i < 64) :
    ∀ e ∈ [Event.store i], e.inBounds = true := by
  intro e he
  rw [List.mem_singleton] at he
  subst he
  simp only [Event.inBounds, decide_eq_true_eq]; exact hi

theorem inBounds_single_compress (b : List UInt8) (hb : b.length = 64) :
    ∀ e ∈ [Event.compress b], e.inBounds = true := by
  intro e he
  rw [List.mem_singleton] at he
  subst he
  simp only [Event.inBounds, decide_eq_true_eq]; exact hb

theorem inBounds_stores_range (a n : Nat) (h : a + n ≤ 64) :
    ∀ e ∈ (List.range' a n).map Event.store, e.inBounds = true :=
  inBounds_map_store _ (fun i hi => by have := List.mem_range'_1.mp hi; omega)

/-- The indices `a`, then `a+1..55`, then `56..63` are the indices `a..63`. -/
theorem range_to_end (a : Nat) (h : a ≤ 55) :
    [a] ++ (List.range' (a + 1) (56 - (a + 1)) ++ List.range' 56 8)
      = List.range' a (64 - a) := by
  have h1 := List.range'_append_1 a 1 (56 - (a + 1))
  have h2 := List.range'_append_1 a (56 - (a + 1) + 1) 8
  have e : a + (56 - (a + 1) + 1) = 56 := by omega
  have e2 : 8 + (56 - (a + 1) + 1) = 64 - a := by omega
  rw [e, e2] at h2
  rw [← h2, ← h1, List.append_assoc]
  rfl

/-- The indices `a`, then `a+1..63`, are the indices `a..63`. -/
theorem range_to_end_spill (a : Nat) (h : a < 64) :
    [a] ++ List.range' (a + 1) (64 - (a + 1)) = List.range' a (64 - a) := by
  have h1 := List.range'_append_1 a 1 (64 - (a + 1))
  have e : 64 - (a + 1) + 1 = 64 - a := by omega
  rw [e] at h1
  rw [← h1]
  rfl

/-- The trace of the `update` loop from a state whose buffer is not full: the
blocks compressed are the complete blocks of the pending bytes followed by
the input, there is no single-byte store, and every copy fits the buffer. -/
theorem updateLoop_trace (fuel : Nat) (s : Sha256) (data : List UInt8)
    (hlen : s.len < 64) (hf : data.length ≤ fuel) :
    ∃ evs, (updateLoop fuel s data).trace = s.trace ++ evs ∧
      compressedBlocks evs = blocksOf (pend s ++ data) ∧
      storeIndices evs = [] ∧
      ∀ e ∈ evs, e.inBounds = true := by
  induction fuel generalizing s data with
  | zero =>
    have : data = [] := List.length_eq_zero.mp (by omega)
    subst this
    refine ⟨[], by simp [updateLoop], ?_, rfl, by simp⟩
    rw [List.append_nil, blocksOf_short _ (by rw [pend_length]; exact hlen)]; rfl
  | succ fuel ih =>
    by_cases hd : data = []
    · subst hd
      refine ⟨[], by simp [updateLoop], ?_, rfl, by simp⟩
      rw [List.append_nil, blocksOf_short _ (by rw [pend_length]; exact hlen)]; rfl
    · have hpos : 0 < data.length := List.length_pos.mpr hd
      rw [updateLoop_succ fuel s data hd]
      by_cases hfull : 64 - s.len ≤ data.length
      · obtain ⟨_, b2, _, b4⟩ := updateBody_full s data hlen hfull
        have htake : updateTake s data.length = 64 - s.len := by
          rw [updateTake_of_lt s _ hlen]; omega
        rw [htake]
        obtain ⟨evs, i1, i2, i3, i4⟩ := ih (updateBody s data) (data.drop (64 - s.len))
          (by omega) (by simp; omega)
        rw [pend_of_len_zero _ b2, List.nil_append] at i2
        have hcons := blocksOf_cons (pend s ++ data) (by simp [pend_length]; omega)
        have hdrop : (pend s ++ data).drop 64 = data.drop (64 - s.len) := by
          rw [List.drop_append_eq_append_drop, pend_length,
            List.drop_of_length_le (by rw [pend_length]; omega)]
          simp
        have hb : ((pend s ++ data).take 64).length = 64 := by
          rw [List.length_take, List.length_append, pend_length]; omega
        refine ⟨[Event.copy s.len (64 - s.len),
          Event.compress ((pend s ++ data).take 64)] ++ evs, ?_, ?_, ?_, ?_⟩
        · rw [i1, b4, List.append_assoc]
        · rw [compressedBlocks_append, i2, hcons, hdrop]; rfl
        · rw [storeIndices_append, i3]; rfl
        · intro e he
          rcases List.mem_append.mp he with he | he
          · simp only [List.mem_cons, List.mem_singleton, List.mem_nil_iff, or_false] at he
            rcases he with rfl | rfl
            · simp only [Event.inBounds, decide_eq_true_eq]; omega
            · simp only [Event.inBounds, decide_eq_true_eq]; exact hb
          · exact i4 e he
      · obtain ⟨_, _, _, _, b5⟩ := updateBody_short s data hlen (by omega)
        have htake : updateTake s data.length = data.length := by
          rw [updateTake_of_lt s _ hlen]; omega
        rw [htake, List.drop_length, updateLoop_nil]
        refine ⟨[Event.copy s.len data.length], b5, ?_, rfl, ?_⟩
        · rw [blocksOf_short _ (by simp [pend_length]; omega)]; rfl
        · intro e he
          rw [List.mem_singleton] at he
          subst he
          simp only [Event.inBounds, decide_eq_true_eq]; omega

/-- The trace of `update` from a state whose buffer is not full. -/
theorem update_trace (s : Sha256) (data : List UInt8) (hlen : s.len < 64) :
    ∃ evs, (update s data).trace = s.trace ++ evs ∧
      compressedBlocks evs = blocksOf (pend s ++ data) ∧
      storeIndices evs = [] ∧
      ∀ e ∈ evs, e.inBounds = true :=
  updateLoop_trace (data.length + 1)
    { s with bits := (s.bits + data.length * 8) % 2^64 } data hlen (by omega)

/-- The trace of `final_hex` from a state whose buffer is not full: the blocks
compressed are the blocks of the pending bytes followed by the padding; the
stores go to the indices `len..63`, and after a spill to `0..63` again; every
event stays inside the buffer. -/
theorem final_hex_trace (s : Sha256) (hlen : s.len < 64) :
    ∃ evs, (final_hex s).2.trace = s.trace ++ evs ∧
      compressedBlocks evs = blocksOf (pend s ++ padTail s.len s.bits) ∧
      storeIndices evs
        = (if s.len ≤ 55 then List.range' s.len (64 - s.len)
           else List.range' s.len (64 - s.len) ++ List.range' 0 64) ∧
      ∀ e ∈ evs, e.inBounds = true := by
  obtain ⟨a1, a2, a3, a4, a5⟩ := store_spec s 0x80 hlen
  rw [final_hex_snd]
  by_cases h55 : s.len ≤ 55
  · have hs2 : ¬ (store s 0x80).len > 56 := by omega
    rw [if_neg hs2, if_pos h55]
    obtain ⟨_, _, _, c4⟩ := lastBlock_spec (store s 0x80) (by omega)
    have hpad : pend s ++ [0x80] ++ List.replicate (56 - (s.len + 1)) (0 : UInt8)
        ++ lengthBytes s.bits = pend s ++ padTail s.len s.bits := by
      have e : 56 - (s.len + 1) = 55 - s.len := by omega
      simp only [padTail, if_pos h55, e, List.append_assoc]
    have hl : (pend s ++ padTail s.len s.bits).length = 64 := by
      rw [List.length_append, pend_length, padTail_length _ _ hlen, if_pos h55]; omega
    rw [a1, a2, a4, a5, hpad] at c4
    refine ⟨[Event.store s.len] ++
      ((List.range' (s.len + 1) (56 - (s.len + 1))).map Event.store ++
        (List.range' 56 8).map Event.store ++
        [Event.compress (pend s ++ padTail s.len s.bits)]),
      by rw [c4, List.append_assoc], ?_, ?_, ?_⟩
    · simp only [compressedBlocks_append, compressedBlocks_map_store,
        compressedBlocks_single_store, compressedBlocks_single_compress,
        List.nil_append, blocksOf_single _ hl]
    · simp only [storeIndices_append, storeIndices_map_store, storeIndices_single_store,
        storeIndices_single_compress, List.append_nil]
      exact range_to_end s.len h55
    · exact inBounds_append _ _ (inBounds_single_store _ hlen)
        (inBounds_append _ _
          (inBounds_append _ _ (inBounds_stores_range _ _ (by omega))
            (inBounds_stores_range _ _ (by omega)))
          (inBounds_single_compress _ hl))
  · have hs2 : (store s 0x80).len > 56 := by omega
    rw [if_pos hs2, if_neg h55]
    obtain ⟨_, t2, t3, t4⟩ := spillBlock_spec (store s 0x80) (by omega)
    generalize ({ compress (zeroFill 64 64 (store s 0x80))
        (bufBlock (zeroFill 64 64 (store s 0x80)).buf) with len := 0 } : Sha256) = t
      at t2 t3 t4 ⊢
    obtain ⟨_, _, _, c4⟩ := lastBlock_spec t (by omega)
    have hpad : pend s ++ padTail s.len s.bits
        = (pend s ++ [0x80] ++ List.replicate (64 - (s.len + 1)) 0) ++
          ([] ++ List.replicate (56 - 0) (0 : UInt8) ++ lengthBytes s.bits) := by
      have e : 119 - s.len = (64 - (s.len + 1)) + 56 := by omega
      simp only [padTail, if_neg h55, e, List.append_assoc, List.nil_append,
        List.replicate_add, Nat.sub_zero]
    have hl1 : (pend s ++ [0x80] ++ List.replicate (64 - (s.len + 1)) (0 : UInt8)).length
        = 64 := by
      simp only [List.length_append, pend_length, List.length_singleton,
        List.length_replicate]
      omega
    have hl2 : (([] : List UInt8) ++ List.replicate (56 - 0) (0 : UInt8)
        ++ lengthBytes s.bits).length = 64 := by
      simp only [List.length_append, List.length_nil, List.length_replicate,
        lengthBytes_length]
    rw [pend_of_len_zero t t2, t2, t3, t4, a1, a2, a4, a5] at c4
    refine ⟨[Event.store s.len] ++
      ((List.range' (s.len + 1) (64 - (s.len + 1))).map Event.store ++
        [Event.compress (pend s ++ [0x80] ++ List.replicate (64 - (s.len + 1)) 0)]) ++
      ((List.range' 0 (56 - 0)).map Event.store ++ (List.range' 56 8).map Event.store ++
        [Event.compress ([] ++ List.replicate (56 - 0) 0 ++ lengthBytes s.bits)]),
      by rw [c4]; simp only [List.append_assoc], ?_, ?_, ?_⟩
    · simp only [compressedBlocks_append, compressedBlocks_map_store,
        compressedBlocks_single_store, compressedBlocks_single_compress,
        List.nil_append, List.append_nil]
      rw [hpad, blocksOf_append _ _ (by rw [hl1]), blocksOf_single _ hl1,
        blocksOf_single _ hl2]
      simp only [List.nil_append, List.singleton_append]
    · simp only [storeIndices_append, storeIndices_map_store, storeIndices_single_store,
        storeIndices_single_compress, List.append_nil]
      rw [range_to_end_spill s.len hlen]
      have e := List.range'_append_1 0 (56 - 0) 8
      rw [show 0 + (56 - 0) = 56 from rfl, show 8 + (56 - 0) = 64 from rfl] at e
      rw [e]
    · exact inBounds_append _ _
        (inBounds_append _ _ (inBounds_single_store _ hlen)
          (inBounds_append _ _ (inBounds_stores_range _ _ (by omega))
            (inBounds_single_compress _ hl1)))
        (inBounds_append _ _
          (inBounds_append _ _ (inBounds_stores_range _ _ (by omega))
            (inBounds_stores_range _ _ (by omega)))
          (inBounds_single_compress _ hl2))

theorem zeroFill_trace_ext (lim fuel : Nat) (s : Sha256) :
    ∃ evs, (zeroFill lim fuel s).trace = s.trace ++ evs := by
  induction fuel generalizing s with
  | zero => exact ⟨[], by simp [zeroFill]⟩
  | succ fuel ih =>
    by_cases hlt : s.len < lim
    · obtain ⟨evs, h⟩ := ih (store s 0)
      refine ⟨[Event.store s.len] ++ evs, ?_⟩
      simp only [zeroFill, if_pos hlt]
      rw [h, ← List.append_assoc]
      rfl
    · exact ⟨[], by simp [zeroFill, hlt]⟩

theorem lengthFold_trace_ext (is : List Nat) (s : Sha256) :
    ∃ evs, (is.foldl (fun t i => store t (UInt8.ofNat ((t.bits >>> (i*8)) &&& 0xff))) s).trace
      = s.trace ++ evs := by
  induction is generalizing s with
  | nil => exact ⟨[], by simp⟩
  | cons i is ih =>
    obtain ⟨evs, h⟩ := ih (store s (UInt8.ofNat ((s.bits >>> (i*8)) &&& 0xff)))
    refine ⟨[Event.store s.len] ++ evs, ?_⟩
    rw [List.foldl_cons, h, ← List.append_assoc]
    rfl

theorem lengthLoop_trace_ext (s : Sha256) : ∃ evs, (lengthLoop s).trace = s.trace ++ evs :=
  lengthFold_trace_ext _ s

/-- On every state, the first thing `final_hex` does is the store of the
marker at index `len`. -/
theorem final_hex_first_store (s : Sha256) :
    ∃ evs, (final_hex s).2.trace = s.trace ++ Event.store s.len :: evs := by
  have a5 : (store s 0x80).trace = s.trace ++ [Event.store s.len] := rfl
  rw [final_hex_snd, compress_trace]
  by_cases hs2 : (store s 0x80).len > 56
  · rw [if_pos hs2]
    obtain ⟨e1, h1⟩ := zeroFill_trace_ext 64 64 (store s 0x80)
    have ht : ({ compress (zeroFill 64 64 (store s 0x80))
        (bufBlock (zeroFill 64 64 (store s 0x80)).buf) with len := 0 } : Sha256).trace
        = s.trace ++ ([Event.store s.len] ++ e1 ++
          [Event.compress (bufBlock (zeroFill 64 64 (store s 0x80)).buf)]) := by
      simp only [compress_trace]
      rw [h1, a5]
      simp only [List.append_assoc]
    generalize ({ compress (zeroFill 64 64 (store s 0x80))
        (bufBlock (zeroFill 64 64 (store s 0x80)).buf) with len := 0 } : Sha256) = t at ht ⊢
    obtain ⟨e2, h2⟩ := zeroFill_trace_ext 56 56 t
    obtain ⟨e3, h3⟩ := lengthLoop_trace_ext (zeroFill 56 56 t)
    refine ⟨e1 ++ [Event.compress (bufBlock (zeroFill 64 64 (store s 0x80)).buf)] ++ e2 ++ e3
      ++ [Event.compress (bufBlock (lengthLoop (zeroFill 56 56 t)).buf)], ?_⟩
    rw [h3, h2, ht]
    simp only [List.append_assoc, List.singleton_append, List.cons_append, List.nil_append]
  · rw [if_neg hs2]
    obtain ⟨e2, h2⟩ := zeroFill_trace_ext 56 56 (store s 0x80)
    obtain ⟨e3, h3⟩ := lengthLoop_trace_ext (zeroFill 56 56 (store s 0x80))
    refine ⟨e2 ++ e3
      ++ [Event.compress (bufBlock (lengthLoop (zeroFill 56 56 (store s 0x80))).buf)], ?_⟩
    rw [h3, h2, a5]
    simp only [List.append_assoc, List.singleton_append, List.cons_append, List.nil_append]

theorem extend_length (l : List Nat) (w : List Nat) :
    (l.foldl extendStep w).length = w.length + l.length := by
  induction l generalizing w with
  | nil => rfl
  | cons i l ih =>
    rw [List.foldl_cons, ih, extendStep, List.length_append, List.length_cons,
      List.length_cons, List.length_nil]
    omega

theorem pend_congr (s1 s2 : Sha256) (hl : s1.len = s2.len)
    (hb : ∀ i, i < s1.len → s1.buf i = s2.buf i) : pend s1 = pend s2 := by
  rw [pend, pend, ← hl, memFirst, memFirst]
  exact List.map_congr_left (fun i hi => hb i (List.mem_range.mp hi))

/-! ## The claims, continued -/

/-- C11: padding layout at finalize.  From every state with `len < 64` and
pending bytes `p`, `final_hex` compresses exactly the 64-byte blocks of
`p ++ [0x80] ++ zeros ++ be64(bits)`, `bits` being the counter before padding
and the zeros the fewest that make the length 56 mod 64; that is one block of
64 bytes when `len ≤ 55` and two when `len ≥ 56`, so a message of length `L`
gets one final block when `L mod 64 ≤ 55` (55, 64) and two otherwise (56, 57). -/
theorem final_hex_padding_layout :
    (∀ s : Sha256, s.len < 64 →
      ∃ evs, (final_hex s).2.trace = s.trace ++ evs ∧
        compressedBlocks evs
          = blocksOf (pend s ++ [0x80] ++ List.replicate (padZeros s.len) 0 ++ be64 s.bits) ∧
        (pend s ++ [0x80] ++ List.replicate (padZeros s.len) 0 ++ be64 s.bits).length
          = (if s.len ≤ 55 then 64 else 128) ∧
        (compressedBlocks evs).length = (if s.len ≤ 55 then 1 else 2)) ∧
    (∀ m : List UInt8,
      ∃ evs, (final_hex (update Sha256.fresh m)).2.trace
          = (update Sha256.fresh m).trace ++ evs ∧
        (compressedBlocks evs).length = (if m.length % 64 ≤ 55 then 1 else 2)) := by
  have key : ∀ s : Sha256, s.len < 64 →
      ∃ evs, (final_hex s).2.trace = s.trace ++ evs ∧
        compressedBlocks evs
          = blocksOf (pend s ++ [0x80] ++ List.replicate (padZeros s.len) 0 ++ be64 s.bits) ∧
        (pend s ++ [0x80] ++ List.replicate (padZeros s.len) 0 ++ be64 s.bits).length
          = (if s.len ≤ 55 then 64 else 128) ∧
        (compressedBlocks evs).length = (if s.len ≤ 55 then 1 else 2) := by
    intro s hlen
    obtain ⟨evs, t1, t2, _, _⟩ := final_hex_trace s hlen
    have hmod : s.len % 64 = s.len := Nat.mod_eq_of_lt hlen
    have hz : padZeros s.len = (if s.len ≤ 55 then 55 - s.len else 119 - s.len) := by
      rw [padZeros_eq, hmod]
    have hpad : pend s ++ [0x80] ++ List.replicate (padZeros s.len) 0 ++ be64 s.bits
        = pend s ++ padTail s.len s.bits := by
      rw [padTail, hz, lengthBytes_eq_be64]
      simp only [List.append_assoc]
    have hl : (pend s ++ padTail s.len s.bits).length
        = (if s.len ≤ 55 then 64 else 128) := by
      rw [List.length_append, pend_length, padTail_length _ _ hlen]
      split <;> omega
    refine ⟨evs, t1, by rw [t2, hpad], by rw [hpad, hl], ?_⟩
    rw [t2, blocksOf_length, hl]
    split <;> rfl
  refine ⟨key, fun m => ?_⟩
  have hf : Sha256.fresh.len < 64 := by rw [fresh_len]; decide
  obtain ⟨_, u2, _⟩ := update_spec Sha256.fresh m hf
  obtain ⟨evs, t1, _, _, t4⟩ := key (update Sha256.fresh m) (update_len_lt _ _ hf)
  rw [u2, fresh_len, Nat.zero_add] at t4
  exact ⟨evs, t1, t4⟩

/-- Witness for C11: `final_hex` on the fresh state. -/
theorem final_hex_padding_layout_witness :
    Sha256.fresh.len < 64 ∧
    ∃ evs, (final_hex Sha256.fresh).2.trace = Sha256.fresh.trace ++ evs ∧
      compressedBlocks evs
        = blocksOf (pend Sha256.fresh ++ [0x80]
            ++ List.replicate (padZeros Sha256.fresh.len) 0 ++ be64 Sha256.fresh.bits) ∧
      (pend Sha256.fresh ++ [0x80]
          ++ List.replicate (padZeros Sha256.fresh.len) 0 ++ be64 Sha256.fresh.bits).length
        = (if Sha256.fresh.len ≤ 55 then 64 else 128) ∧
      (compressedBlocks evs).length = (if Sha256.fresh.len ≤ 55 then 1 else 2) :=
  ⟨by decide, final_hex_padding_layout.1 Sha256.fresh (by decide)⟩

/-- C14: sub-block feed.  From a state with `len < 64`, an `update` with
`len + length(data) < 64` compresses nothing: `h` is unchanged, `len` grows by
`length(data)` and the pending bytes are the old ones followed by `data`.
When `len + length(data) ≥ 64`, the first block compressed is the old pending
bytes followed by the first `64 - len` bytes of `data`. -/
theorem update_sub_block :
    (∀ (s : Sha256) (data : List UInt8), s.len < 64 → s.len + data.length < 64 →
      (∃ evs, (update s data).trace = s.trace ++ evs ∧ compressedBlocks evs = []) ∧
      (update s data).h = s.h ∧
      (update s data).len = s.len + data.length ∧
      pend (update s data) = pend s ++ data) ∧
    (∀ (s : Sha256) (data : List UInt8), s.len < 64 → 64 ≤ s.len + data.length →
      ∃ evs, (update s data).trace = s.trace ++ evs ∧
        (compressedBlocks evs).head? = some (pend s ++ data.take (64 - s.len))) := by
  constructor
  · intro s data hlen hsub
    obtain ⟨u1, u2, u3, _⟩ := update_spec s data hlen
    obtain ⟨evs, t1, t2, _, _⟩ := update_trace s data hlen
    have hshort : blocksOf (pend s ++ data) = [] :=
      blocksOf_short _ (by rw [List.length_append, pend_length]; exact hsub)
    have h0 : (s.len + data.length) / 64 = 0 := by omega
    refine ⟨⟨evs, t1, by rw [t2, hshort]⟩, ?_, ?_, ?_⟩
    · rw [u1, hshort]; rfl
    · rw [u2]; omega
    · rw [u3, h0]; rfl
  · intro s data hlen hfull
    obtain ⟨evs, t1, t2, _, _⟩ := update_trace s data hlen
    refine ⟨evs, t1, ?_⟩
    rw [t2, blocksOf_cons _ (by rw [List.length_append, pend_length]; exact hfull),
      List.head?_cons, List.take_append_eq_append_take, pend_length,
      List.take_of_length_le (by rw [pend_length]; omega)]

/-- Witness for C14: three bytes into a fresh state, and 64 bytes into it. -/
theorem update_sub_block_witness :
    (Sha256.fresh.len < 64 ∧ Sha256.fresh.len + [(0x61 : UInt8), 0x62, 0x63].length < 64 ∧
      (update Sha256.fresh [0x61, 0x62, 0x63]).h = Sha256.fresh.h) ∧
    (Sha256.fresh.len < 64 ∧ 64 ≤ Sha256.fresh.len + (List.replicate 64 (0x61 : UInt8)).length ∧
      ∃ evs, (update Sha256.fresh (List.replicate 64 0x61)).trace = Sha256.fresh.trace ++ evs ∧
        (compressedBlocks evs).head?
          = some (pend Sha256.fresh
              ++ (List.replicate 64 (0x61 : UInt8)).take (64 - Sha256.fresh.len))) :=
  ⟨⟨by decide, by decide,
      (update_sub_block.1 Sha256.fresh [0x61, 0x62, 0x63] (by decide) (by decide)).2.1⟩,
    ⟨by decide, by decide,
      update_sub_block.2 Sha256.fresh (List.replicate 64 0x61) (by decide) (by decide)⟩⟩

/-- C18: stale buffer bytes never reach the digest.  Two states with the same
`h`, `bits` and `len < 64` whose buffers agree below `len` give the same
digest, directly and after any `update`. -/
theorem stale_bytes_irrelevant (s1 s2 : Sha256) (data : List UInt8)
    (hh : s1.h = s2.h) (hb : s1.bits = s2.bits) (hl : s1.len = s2.len)
    (hlen : s1.len < 64) (hbuf : ∀ i, i < s1.len → s1.buf i = s2.buf i) :
    (final_hex (update s1 data)).1 = (final_hex (update s2 data)).1 ∧
    (final_hex s1).1 = (final_hex s2).1 := by
  have hp := pend_congr s1 s2 hl hbuf
  obtain ⟨u1, u2, u3, u4⟩ := update_congr s1 s2 data hlen hh hb hl hp
  exact ⟨final_hex_congr _ _ (update_len_lt s1 data hlen) u1 u2 u3 u4,
    final_hex_congr s1 s2 hlen hh hb hl hp⟩

/-- Witness for C18: `staleA` and `staleB` differ at every index from 1 on. -/
theorem stale_bytes_irrelevant_witness :
    (staleA.h = staleB.h ∧ staleA.bits = staleB.bits ∧ staleA.len = staleB.len ∧
      staleA.len < 64 ∧ (∀ i, i < staleA.len → staleA.buf i = staleB.buf i) ∧
      staleA.buf 1 ≠ staleB.buf 1) ∧
    (final_hex (update staleA [0x61])).1 = (final_hex (update staleB [0x61])).1 ∧
    (final_hex staleA).1 = (final_hex staleB).1 :=
  ⟨⟨rfl, rfl, rfl, by decide, by decide, by decide⟩,
    stale_bytes_irrelevant staleA staleB [0x61] rfl rfl rfl (by decide) (by decide)⟩

/-- C19: finalize breaks the pending invariant.  From every state with
`len < 64`, `final_hex` leaves `len = 64` and `bits` unchanged, so `len < 64`
no longer holds; a second `final_hex` on that state starts with a store at
buffer index 64, outside the buffer, and nothing stops it. -/
theorem final_hex_leaves_len_64 (s : Sha256) (hlen : s.len < 64) :
    (final_hex s).2.len = 64 ∧ (final_hex s).2.bits = s.bits ∧
    ¬ (final_hex s).2.len < 64 ∧
    (∃ evs, (final_hex (final_hex s).2).2.trace
      = (final_hex s).2.trace ++ Event.store 64 :: evs) ∧
    (Event.store 64).inBounds = false := by
  obtain ⟨_, f2, f3, _⟩ := final_hex_spec s hlen
  obtain ⟨evs, h⟩ := final_hex_first_store (final_hex s).2
  rw [f2] at h
  exact ⟨f2, f3, by rw [f2]; decide, ⟨evs, h⟩, rfl⟩

/-- Witness for C19 on the fresh state. -/
theorem final_hex_leaves_len_64_witness :
    Sha256.fresh.len < 64 ∧ (final_hex Sha256.fresh).2.len = 64 :=
  ⟨by decide, (final_hex_leaves_len_64 Sha256.fresh (by decide)).1⟩

/-! ## Rotation and the constant tables -/

theorem rotr_lt (x n : Nat) (hx : x < 2^32) : rotr x n < 2^32 := by
  rw [rotr]
  apply Nat.or_lt_two_pow
  · rw [Nat.shiftRight_eq_div_pow]
    exact Nat.lt_of_le_of_lt (Nat.div_le_self _ _) hx
  · exact Nat.mod_lt _ (by decide)

/-- Bit `j` of `rotr x n` is bit `(j + n) mod 32` of `x`. -/
theorem rotr_testBit (x n j : Nat) (hx : x < 2^32) (hn0 : 0 < n) (hn : n < 32) (hj : j < 32) :
    (rotr x n).testBit j = x.testBit ((j + n) % 32) := by
  rw [rotr, Nat.testBit_or, Nat.testBit_shiftRight, Nat.testBit_mod_two_pow,
    Nat.testBit_shiftLeft]
  by_cases hc : j + n < 32
  · have h1 : (j + n) % 32 = n + j := by omega
    have h2 : ¬ (j ≥ 32 - n) := by omega
    simp [h1, h2]
  · have h1 : (j + n) % 32 = j - (32 - n) := by omega
    have h2 : j ≥ 32 - n := by omega
    have h3 : x.testBit (n + j) = false :=
      Nat.testBit_lt_two_pow (Nat.lt_of_lt_of_le hx (Nat.pow_le_pow_right (by decide) (by omega)))
    simp [h1, h2, h3, hj]

theorem rotr_rotr (x n : Nat) (hx : x < 2^32) (hn0 : 0 < n) (hn : n < 32) :
    rotr (rotr x n) (32 - n) = x := by
  apply Nat.eq_of_testBit_eq
  intro j
  by_cases hj : j < 32
  · rw [rotr_testBit _ _ j (rotr_lt x n hx) (by omega) (by omega) hj,
      rotr_testBit x n _ hx hn0 hn (Nat.mod_lt _ (by decide))]
    congr 1
    omega
  · have hle : 2^32 ≤ 2^j := Nat.pow_le_pow_right (by decide) (by omega)
    rw [Nat.testBit_lt_two_pow (Nat.lt_of_lt_of_le (rotr_lt _ _ (rotr_lt x n hx)) hle),
      Nat.testBit_lt_two_pow (Nat.lt_of_lt_of_le hx hle)]

theorem range_rotate (n : Nat) :
    (List.range 32).map (fun j => (j + n) % 32) = (List.range 32).rotate n := by
  apply List.ext_getElem
  · simp
  · intro i h1 h2
    rw [List.getElem_rotate]
    simp

theorem rotr_popCount (x n : Nat) (hx : x < 2^32) (hn0 : 0 < n) (hn : n < 32) :
    popCount32 (rotr x n) = popCount32 x := by
  have h1 : popCount32 (rotr x n)
      = (List.range 32).countP ((fun j => x.testBit j) ∘ (fun j => (j + n) % 32)) := by
    rw [popCount32]
    apply List.countP_congr
    intro j hj
    have hj' : j < 32 := List.mem_range.mp hj
    simp only [Function.comp]
    rw [rotr_testBit x n j hx hn0 hn hj']
  rw [h1, ← List.countP_map, range_rotate, popCount32]
  exact List.Perm.countP_eq _ (List.rotate_perm _ _)

theorem isPrime_iff (n : Nat) : isPrime n = true ↔ Nat.Prime n := by
  rw [Nat.prime_def_lt']
  simp only [isPrime, Bool.and_eq_true, decide_eq_true_eq, List.all_eq_true, List.mem_range,
    Bool.or_eq_true, ne_eq]
  constructor
  · rintro ⟨h2, h⟩
    refine ⟨h2, fun m hm hmn hdvd => ?_⟩
    rcases h m hmn with h' | h'
    · omega
    · exact h' (Nat.mod_eq_zero_of_dvd hdvd)
  · rintro ⟨h2, h⟩
    refine ⟨h2, fun d hd => ?_⟩
    by_cases hd2 : d < 2
    · exact Or.inl hd2
    · exact Or.inr (fun h0 => h d (by omega) hd (Nat.dvd_of_mod_eq_zero h0))

/-- The list `firstPrimes` holds exactly the primes up to 311. -/
theorem mem_firstPrimes (p : Nat) : p ∈ firstPrimes ↔ Nat.Prime p ∧ p ≤ 311 := by
  rw [firstPrimes, List.mem_filter, List.mem_range, isPrime_iff]
  constructor
  · rintro ⟨h1, h2⟩; exact ⟨h2, by omega⟩
  · rintro ⟨h1, h2⟩; exact ⟨by omega, h1⟩

theorem firstPrimes_sorted : List.Pairwise (fun a b => a < b) firstPrimes := by
  rw [firstPrimes]
  exact List.Pairwise.filter _ (List.pairwise_lt_range 312)

theorem floorRoot_spec (r p : Nat) (hr : 0 < r) :
    floorRoot r p ^ r ≤ p ∧ p < (floorRoot r p + 1) ^ r := by
  constructor
  · have h0 : (0 : Nat) ^ r ≤ p := by rw [Nat.zero_pow hr]; exact Nat.zero_le _
    exact @Nat.findGreatest_spec 0 (fun m => m ^ r ≤ p) _ p (Nat.zero_le p) h0
  · by_contra hcon
    have hle : (floorRoot r p + 1) ^ r ≤ p := Nat.le_of_not_lt hcon
    have hb : floorRoot r p + 1 ≤ p := by
      calc floorRoot r p + 1 ≤ (floorRoot r p + 1) ^ r := Nat.le_self_pow (by omega) _
        _ ≤ p := hle
    have h := @Nat.le_findGreatest (floorRoot r p + 1) (fun m => m ^ r ≤ p) _ p hb hle
    rw [← floorRoot.eq_1] at h
    omega

/-- C12: initialization.  A fresh `Sha256` has `len = 0`, `bits = 0`, no
pending bytes, and its `h` holds the eight standard initial values: `h[i]` is
the first 32 bits of the fractional part of the square root of the `i`-th
prime, the primes being 2, 3, 5, 7, 11, 13, 17, 19. -/
theorem fresh_state :
    Sha256.fresh.len = 0 ∧ Sha256.fresh.bits = 0 ∧ pend Sha256.fresh = [] ∧
    Sha256.fresh.h = [0x6a09e667, 0xbb67ae85, 0x3c6ef372, 0xa54ff53a,
                      0x510e527f, 0x9b05688c, 0x1f83d9ab, 0x5be0cd19] ∧
    firstPrimes.take 8 = [2, 3, 5, 7, 11, 13, 17, 19] ∧
    (∀ i, i < 8 → IsFracRootBits 2 (firstPrimes.getD i 0) (Sha256.fresh.h.getD i 0)) := by
  decide!

/-- Witness for C12: the first word and the prime 2. -/
theorem fresh_state_witness :
    0 < 8 ∧ IsFracRootBits 2 (firstPrimes.getD 0 0) (Sha256.fresh.h.getD 0 0) :=
  ⟨by decide, fresh_state.2.2.2.2.2 0 (by decide)⟩

/-- C15: the round constants.  The table `k` has 64 entries and `k[i]` is the
first 32 bits of the fractional part of the cube root of the `i`-th prime,
the primes being the 64 primes from 2 to 311 in increasing order. -/
theorem round_constants :
    k.length = 64 ∧ firstPrimes.length = 64 ∧
    firstPrimes.getD 0 0 = 2 ∧ firstPrimes.getD 63 0 = 311 ∧
    (∀ p, p ∈ firstPrimes ↔ Nat.Prime p ∧ p ≤ 311) ∧
    List.Pairwise (fun a b => a < b) firstPrimes ∧
    (∀ i, i < 64 → IsFracRootBits 3 (firstPrimes.getD i 0) (k.getD i 0)) := by
  have hev : firstPrimes.length = 64 ∧ firstPrimes.getD 0 0 = 2 ∧
      firstPrimes.getD 63 0 = 311 ∧
      (∀ i, i < 64 → IsFracRootBits 3 (firstPrimes.getD i 0) (k.getD i 0)) := by
    decide!
  exact ⟨rfl, hev.1, hev.2.1, hev.2.2.1, mem_firstPrimes, firstPrimes_sorted, hev.2.2.2⟩

/-- Witness for C15: the last constant and the prime 311. -/
theorem round_constants_witness :
    63 < 64 ∧ IsFracRootBits 3 (firstPrimes.getD 63 0) (k.getD 63 0) :=
  ⟨by decide, round_constants.2.2.2.2.2.2 63 (by decide)⟩

/-- C16: `rotr` is a right rotation that keeps all 32 bits.  For a 32-bit `x`
and `0 < n < 32`, bit `j` of `rotr x n` is bit `(j + n) mod 32` of `x`;
rotating on by `32 - n` gives `x` back; the number of set bits is unchanged.
The rotation amounts used by `bsig0`, `bsig1`, `ssig0`, `ssig1` are in range. -/
theorem rotr_rotation :
    (∀ x n j, x < 2^32 → 0 < n → n < 32 → j < 32 →
      (rotr x n).testBit j = x.testBit ((j + n) % 32)) ∧
    (∀ x n, x < 2^32 → 0 < n → n < 32 →
      rotr x n < 2^32 ∧ rotr (rotr x n) (32 - n) = x ∧
      popCount32 (rotr x n) = popCount32 x) ∧
    (∀ x, bsig0 x = rotr x 2 ^^^ rotr x 13 ^^^ rotr x 22 ∧
      bsig1 x = rotr x 6 ^^^ rotr x 11 ^^^ rotr x 25 ∧
      ssig0 x = rotr x 7 ^^^ rotr x 18 ^^^ (x >>> 3) ∧
      ssig1 x = rotr x 17 ^^^ rotr x 19 ^^^ (x >>> 10)) ∧
    (∀ n ∈ [2, 13, 22, 6, 11, 25, 7, 18, 17, 19], 0 < n ∧ n < 32) := by
  refine ⟨fun x n j hx hn0 hn hj => rotr_testBit x n j hx hn0 hn hj,
    fun x n hx hn0 hn => ⟨rotr_lt x n hx, rotr_rotr x n hx hn0 hn, rotr_popCount x n hx hn0 hn⟩,
    fun x => ⟨rfl, rfl, rfl, rfl⟩, by decide⟩

/-- Witness for C16: the first initial word rotated by 7. -/
theorem rotr_rotation_witness :
    (0x6a09e667 < 2^32 ∧ 0 < 7 ∧ 7 < 32) ∧
    rotr (rotr 0x6a09e667 7) (32 - 7) = 0x6a09e667 ∧
    popCount32 (rotr 0x6a09e667 7) = popCount32 0x6a09e667 :=
  ⟨⟨by decide, by decide, by decide⟩,
    (rotr_rotation.2.1 0x6a09e667 7 (by decide) (by decide) (by decide)).2⟩

/-- The digest of a message fed to a fresh state in one `update`. -/
theorem digest_eq_foldDigest (m : List UInt8) :
    (final_hex (update Sha256.fresh m)).1 = foldDigest m := by
  have hf : Sha256.fresh.len < 64 := by rw [fresh_len]; decide
  obtain ⟨u1, u2, u3, _⟩ := update_spec Sha256.fresh m hf
  have ub := update_bits Sha256.fresh m
  rw [fresh_bits, Nat.zero_add] at ub
  rw [fresh_len, Nat.zero_add] at u2 u3
  rw [pend_of_len_zero _ fresh_len, List.nil_append] at u1 u3
  obtain ⟨f1, _⟩ := final_hex_spec (update Sha256.fresh m) (update_len_lt _ _ hf)
  rw [final_hex_fst, f1, u1, u2, u3, ub, foldDigest, ← List.foldl_append,
    ← blocksOf_append_rem]

theorem abc_foldDigest :
    foldDigest [0x61, 0x62, 0x63] = "ba7816bf8f01cfea414140de5dae2223b00361a396177a9cb410ff61f20015ad" := by
  decide!

theorem abc_flip_0_0 :
    foldDigest (flipBit [0x61, 0x62, 0x63] 0 0) ≠ "ba7816bf8f01cfea414140de5dae2223b00361a396177a9cb410ff61f20015ad" := by
  decide!

theorem abc_flip_0_1 :
    foldDigest (flipBit [0x61, 0x62, 0x63] 0 1) ≠ "ba7816bf8f01cfea414140de5dae2223b00361a396177a9cb410ff61f20015ad" := by
  decide!

theorem abc_flip_0_2 :
    foldDigest (flipBit [0x61, 0x62, 0x63] 0 2) ≠ "ba7816bf8f01cfea414140de5dae2223b00361a396177a9cb410ff61f20015ad" := by
  decide!

theorem abc_flip_0_3 :
    foldDigest (flipBit [0x61, 0x62, 0x63] 0 3) ≠ "ba7816bf8f01cfea414140de5dae2223b00361a396177a9cb410ff61f20015ad" := by
  decide!

theorem abc_flip_0_4 :
    foldDigest (flipBit [0x61, 0x62, 0x63] 0 4) ≠ "ba7816bf8f01cfea414140de5dae2223b00361a396177a9cb410ff61f20015ad" := by
  decide!

theorem abc_flip_0_5 :
    foldDigest (flipBit [0x61, 0x62, 0x63] 0 5) ≠ "ba7816bf8f01cfea414140de5dae2223b00361a396177a9cb410ff61f20015ad" := by
  decide!

theorem abc_flip_0_6 :
    foldDigest (flipBit [0x61, 0x62, 0x63] 0 6) ≠ "ba7816bf8f01cfea414140de5dae2223b00361a396177a9cb410ff61f20015ad" := by
  decide!

theorem abc_flip_0_7 :
    foldDigest (flipBit [0x61, 0x62, 0x63] 0 7) ≠ "ba7816bf8f01cfea414140de5dae2223b00361a396177a9cb410ff61f20015ad" := by
  decide!

theorem abc_flip_1_0 :
    foldDigest (flipBit [0x61, 0x62, 0x63] 1 0) ≠ "ba7816bf8f01cfea414140de5dae2223b00361a396177a9cb410ff61f20015ad" := by
  decide!

theorem abc_flip_1_1 :
    foldDigest (flipBit [0x61, 0x62, 0x63] 1 1) ≠ "ba7816bf8f01cfea414140de5dae2223b00361a396177a9cb410ff61f20015ad" := by
  decide!

theorem abc_flip_1_2 :
    foldDigest (flipBit [0x61, 0x62, 0x63] 1 2) ≠ "ba7816bf8f01cfea414140de5dae2223b00361a396177a9cb410ff61f20015ad" := by
  decide!

theorem abc_flip_1_3 :
    foldDigest (flipBit [0x61, 0x62, 0x63] 1 3) ≠ "ba7816bf8f01cfea414140de5dae2223b00361a396177a9cb410ff61f20015ad" := by
  decide!

theorem abc_flip_1_4 :
    foldDigest (flipBit [0x61, 0x62, 0x63] 1 4) ≠ "ba7816bf8f01cfea414140de5dae2223b00361a396177a9cb410ff61f20015ad" := by
  decide!

theorem abc_flip_1_5 :
    foldDigest (flipBit [0x61, 0x62, 0x63] 1 5) ≠ "ba7816bf8f01cfea414140de5dae2223b00361a396177a9cb410ff61f20015ad" := by
  decide!

theorem abc_flip_1_6 :
    foldDigest (flipBit [0x61, 0x62, 0x63] 1 6) ≠ "ba7816bf8f01cfea414140de5dae2223b00361a396177a9cb410ff61f20015ad" := by
  decide!

theorem abc_flip_1_7 :
    foldDigest (flipBit [0x61, 0x62, 0x63] 1 7) ≠ "ba7816bf8f01cfea414140de5dae2223b00361a396177a9cb410ff61f20015ad" := by
  decide!

theorem abc_flip_2_0 :
    foldDigest (flipBit [0x61, 0x62, 0x63] 2 0) ≠ "ba7816bf8f01cfea414140de5dae2223b00361a396177a9cb410ff61f20015ad" := by
  decide!

theorem abc_flip_2_1 :
    foldDigest (flipBit [0x61, 0x62, 0x63] 2 1) ≠ "ba7816bf8f01cfea414140de5dae2223b00361a396177a9cb410ff61f20015ad" := by
  decide!

theorem abc_flip_2_2 :
    foldDigest (flipBit [0x61, 0x62, 0x63] 2 2) ≠ "ba7816bf8f01cfea414140de5dae2223b00361a396177a9cb410ff61f20015ad" := by
  decide!

theorem abc_flip_2_3 :
    foldDigest (flipBit [0x61, 0x62, 0x63] 2 3) ≠ "ba7816bf8f01cfea414140de5dae2223b00361a396177a9cb410ff61f20015ad" := by
  decide!

theorem abc_flip_2_4 :
    foldDigest (flipBit [0x61, 0x62, 0x63] 2 4) ≠ "ba7816bf8f01cfea414140de5dae2223b00361a396177a9cb410ff61f20015ad" := by
  decide!

theorem abc_flip_2_5 :
    foldDigest (flipBit [0x61, 0x62, 0x63] 2 5) ≠ "ba7816bf8f01cfea414140de5dae2223b00361a396177a9cb410ff61f20015ad" := by
  decide!

theorem abc_flip_2_6 :
    foldDigest (flipBit [0x61, 0x62, 0x63] 2 6) ≠ "ba7816bf8f01cfea414140de5dae2223b00361a396177a9cb410ff61f20015ad" := by
  decide!

theorem abc_flip_2_7 :
    foldDigest (flipBit [0x61, 0x62, 0x63] 2 7) ≠ "ba7816bf8f01cfea414140de5dae2223b00361a396177a9cb410ff61f20015ad" := by
  decide!

/-- C20: single-bit-flip spot check.  Flipping any one of the 24 bits of
"abc" changes the digest. -/
theorem abc_bit_flips :
    ∀ i, i < 3 → ∀ b, b < 8 →
      (final_hex (update Sha256.fresh (flipBit [0x61, 0x62, 0x63] i b))).1
        ≠ (final_hex (update Sha256.fresh [0x61, 0x62, 0x63])).1 := by
  intro i hi b hb
  rw [digest_eq_foldDigest, digest_eq_foldDigest, abc_foldDigest]
  interval_cases i <;> interval_cases b
  · exact abc_flip_0_0
  · exact abc_flip_0_1
  · exact abc_flip_0_2
  · exact abc_flip_0_3
  · exact abc_flip_0_4
  · exact abc_flip_0_5
  · exact abc_flip_0_6
  · exact abc_flip_0_7
  · exact abc_flip_1_0
  · exact abc_flip_1_1
  · exact abc_flip_1_2
  · exact abc_flip_1_3
  · exact abc_flip_1_4
  · exact abc_flip_1_5
  · exact abc_flip_1_6
  · exact abc_flip_1_7
  · exact abc_flip_2_0
  · exact abc_flip_2_1
  · exact abc_flip_2_2
  · exact abc_flip_2_3
  · exact abc_flip_2_4
  · exact abc_flip_2_5
  · exact abc_flip_2_6
  · exact abc_flip_2_7

/-- Witness for C20: the lowest bit of the first byte. -/
theorem abc_bit_flips_witness :
    0 < 3 ∧ 0 < 8 ∧
    (final_hex (update Sha256.fresh (flipBit [0x61, 0x62, 0x63] 0 0))).1
      ≠ (final_hex (update Sha256.fresh [0x61, 0x62, 0x63])).1 :=
  ⟨by decide, by decide, abc_bit_flips 0 (by decide) 0 (by decide)⟩

/-! ## The program against FIPS 180-4 -/

theorem rotr_eq_ROTR (x : BitVec 32) (n : Nat) : rotr x.toNat n = (Fips.ROTR n x).toNat := by
  simp only [rotr, Fips.ROTR, BitVec.toNat_or, BitVec.toNat_ushiftRight, BitVec.toNat_shiftLeft]

theorem xor_ones_eq (x : Nat) (hx : x < 2^32) : 0xffffffff ^^^ x = 2^32 - 1 - x := by
  apply Nat.eq_of_testBit_eq
  intro i
  have e : 2^32 - 1 - x = 2^32 - (x + 1) := by omega
  rw [e, Nat.testBit_two_pow_sub_succ hx, Nat.testBit_xor,
    show (0xffffffff : Nat) = 2^32 - 1 from rfl, Nat.testBit_two_pow_sub_one]
  by_cases hi : i < 32
  · simp [hi]
  · have : x.testBit i = false :=
      Nat.testBit_lt_two_pow (Nat.lt_of_lt_of_le hx (Nat.pow_le_pow_right (by decide) (by omega)))
    simp [hi, this]

theorem ch_eq_Ch (x y z : BitVec 32) :
    ch x.toNat y.toNat z.toNat = (Fips.Ch x y z).toNat := by
  have hx := x.isLt
  have e : (0xffffffff ^^^ x.toNat) % 2^32 = 2^32 - 1 - x.toNat := by
    rw [xor_ones_eq _ hx]; omega
  simp only [ch, Fips.Ch, BitVec.toNat_xor, BitVec.toNat_and, BitVec.toNat_not, e]

theorem maj_eq_Maj (x y z : BitVec 32) :
    maj x.toNat y.toNat z.toNat = (Fips.Maj x y z).toNat := by
  simp only [maj, Fips.Maj, BitVec.toNat_xor, BitVec.toNat_and]

theorem bsig0_eq (x : BitVec 32) : bsig0 x.toNat = (Fips.bigSigma0 x).toNat := by
  simp only [bsig0, Fips.bigSigma0, BitVec.toNat_xor, rotr_eq_ROTR]

theorem bsig1_eq (x : BitVec 32) : bsig1 x.toNat = (Fips.bigSigma1 x).toNat := by
  simp only [bsig1, Fips.bigSigma1, BitVec.toNat_xor, rotr_eq_ROTR]

theorem ssig0_eq (x : BitVec 32) : ssig0 x.toNat = (Fips.smallSigma0 x).toNat := by
  simp only [ssig0, Fips.smallSigma0, Fips.SHR, BitVec.toNat_xor, rotr_eq_ROTR,
    BitVec.toNat_ushiftRight]

theorem ssig1_eq (x : BitVec 32) : ssig1 x.toNat = (Fips.smallSigma1 x).toNat := by
  simp only [ssig1, Fips.smallSigma1, Fips.SHR, BitVec.toNat_xor, rotr_eq_ROTR,
    BitVec.toNat_ushiftRight]

theorem floorRoot_unique (r n y : Nat) (hr : 0 < r) (h1 : y ^ r ≤ n) (h2 : n < (y + 1) ^ r) :
    floorRoot r n = y := by
  obtain ⟨f1, f2⟩ := floorRoot_spec r n hr
  rcases Nat.lt_trichotomy (floorRoot r n) y with hlt | heq | hgt
  · have : (floorRoot r n + 1) ^ r ≤ y ^ r := Nat.pow_le_pow_left hlt r
    omega
  · exact heq
  · have : (y + 1) ^ r ≤ floorRoot r n ^ r := Nat.pow_le_pow_left hgt r
    omega

theorem fracRootBits_eq (r p x : Nat) (hr : 0 < r) (hx : x < 2^32)
    (h : IsFracRootBits r p x) : floorRoot r (p * 2^(32 * r)) % 2^32 = x := by
  rw [floorRoot_unique r _ _ hr h.1 h.2, Nat.add_mul_mod_self_right, Nat.mod_eq_of_lt hx]

theorem k_fracRootBits :
    ∀ i, i < 64 → k.getD i 0 < 2^32 ∧ IsFracRootBits 3 (firstPrimes.getD i 0) (k.getD i 0) := by
  decide!

theorem h_fracRootBits :
    ∀ i, i < 8 → Sha256.fresh.h.getD i 0 < 2^32 ∧
      IsFracRootBits 2 (firstPrimes.getD i 0) (Sha256.fresh.h.getD i 0) := by
  decide!

theorem k_eq_K (t : Nat) (ht : t < 64) : k.getD t 0 = (Fips.K t).toNat := by
  obtain ⟨h1, h2⟩ := k_fracRootBits t ht
  rw [Fips.K, BitVec.toNat_ofNat, show (2:Nat)^96 = 2^(32 * 3) from rfl,
    fracRootBits_eq 3 _ _ (by decide) h1 h2]

theorem h_eq_initWord (j : Nat) (hj : j < 8) :
    Sha256.fresh.h.getD j 0 = (Fips.initWord j).toNat := by
  obtain ⟨h1, h2⟩ := h_fracRootBits j hj
  rw [Fips.initWord, BitVec.toNat_ofNat, show (2:Nat)^64 = 2^(32 * 2) from rfl,
    fracRootBits_eq 2 _ _ (by decide) h1 h2]

theorem fresh_h_eq_H0 : Sha256.fresh.h = Fips.words Fips.H0 := by
  have e : Sha256.fresh.h = (List.range 8).map (fun j => Sha256.fresh.h.getD j 0) := by decide
  rw [e, Fips.words, Fips.H0]
  simp only [← h_eq_initWord 0 (by decide), ← h_eq_initWord 1 (by decide),
    ← h_eq_initWord 2 (by decide), ← h_eq_initWord 3 (by decide),
    ← h_eq_initWord 4 (by decide), ← h_eq_initWord 5 (by decide),
    ← h_eq_initWord 6 (by decide), ← h_eq_initWord 7 (by decide)]
  rfl

theorem shiftLeft_or (a b n : Nat) : (a ||| b) <<< n = a <<< n ||| b <<< n := by
  apply Nat.eq_of_testBit_eq
  intro i
  simp only [Nat.testBit_shiftLeft, Nat.testBit_or, Bool.and_or_distrib_left]

theorem or_bytes (a b c d : Nat) (hb : b < 2^8) (hc : c < 2^8) (hd : d < 2^8) :
    a <<< 24 ||| b <<< 16 ||| c <<< 8 ||| d = a * 256^3 + b * 256^2 + c * 256 + d := by
  have e : a <<< 24 ||| b <<< 16 ||| c <<< 8 ||| d
      = ((a <<< 8 ||| b) <<< 8 ||| c) <<< 8 ||| d := by
    simp only [shiftLeft_or, ← Nat.shiftLeft_add]
  rw [e, Nat.shiftLeft_eq ((a <<< 8 ||| b) <<< 8 ||| c), Nat.mul_comm _ (2^8),
    ← Nat.mul_add_lt_is_or hd, Nat.shiftLeft_eq (a <<< 8 ||| b), Nat.mul_comm _ (2^8),
    ← Nat.mul_add_lt_is_or hc, Nat.shiftLeft_eq a, Nat.mul_comm _ (2^8),
    ← Nat.mul_add_lt_is_or hb]
  ring

theorem loadWord_eq_M (block : List UInt8) (t : Nat) :
    loadWord block t = (Fips.M block t).toNat := by
  have h0 := (block.getD (t * 4) 0).toNat_lt
  have h1 := (block.getD (t * 4 + 1) 0).toNat_lt
  have h2 := (block.getD (t * 4 + 2) 0).toNat_lt
  have h3 := (block.getD (t * 4 + 3) 0).toNat_lt
  have s0 : (block.getD (t * 4) 0).toNat <<< 24 < 2^32 := by
    rw [Nat.shiftLeft_eq]; omega
  have s1 : (block.getD (t * 4 + 1) 0).toNat <<< 16 < 2^32 := by
    rw [Nat.shiftLeft_eq]; omega
  have s2 : (block.getD (t * 4 + 2) 0).toNat <<< 8 < 2^32 := by
    rw [Nat.shiftLeft_eq]; omega
  rw [loadWord, Fips.M, BitVec.toNat_ofNat, Nat.mod_eq_of_lt s0, Nat.mod_eq_of_lt s1,
    Nat.mod_eq_of_lt s2, or_bytes _ _ _ _ h1 h2 h3, Nat.mul_comm 4 t, Nat.mod_eq_of_lt]
  omega

theorem getD_map_range (f : Nat → Nat) (n j : Nat) (hj : j < n) :
    ((List.range n).map f).getD j 0 = f j := by
  rw [List.getD_eq_getElem _ _ (by rw [List.length_map, List.length_range]; exact hj),
    List.getElem_map, List.getElem_range]

theorem W_lt (block : List UInt8) (t : Nat) (ht : t < 16) :
    Fips.W block t = Fips.M block t := by
  rw [Fips.W, dif_pos ht]

theorem W_ge (block : List UInt8) (t : Nat) (ht : ¬ t < 16) :
    Fips.W block t = Fips.smallSigma1 (Fips.W block (t - 2)) + Fips.W block (t - 7)
      + Fips.smallSigma0 (Fips.W block (t - 15)) + Fips.W block (t - 16) := by
  rw [Fips.W, dif_neg ht]

theorem schedule_prefix_eq_W (block : List UInt8) (n : Nat) :
    (List.range' 16 n).foldl extendStep ((List.range 16).map (loadWord block))
      = (List.range (16 + n)).map (fun t => (Fips.W block t).toNat) := by
  induction n with
  | zero =>
    rw [List.range'_zero, List.foldl_nil]
    apply List.map_congr_left
    intro t ht
    rw [W_lt block t (List.mem_range.mp ht), loadWord_eq_M]
  | succ n ih =>
    rw [List.range'_concat, List.foldl_append, ih, List.foldl_cons, List.foldl_nil,
      extendStep, Nat.one_mul, ← Nat.add_assoc, List.range_succ, List.map_append, List.map_cons,
      List.map_nil,
      getD_map_range _ _ _ (show 16 + n - 2 < 16 + n by omega),
      getD_map_range _ _ _ (show 16 + n - 7 < 16 + n by omega),
      getD_map_range _ _ _ (show 16 + n - 15 < 16 + n by omega),
      getD_map_range _ _ _ (show 16 + n - 16 < 16 + n by omega),
      W_ge block (16 + n) (by omega), ssig1_eq, ssig0_eq]
    simp only [BitVec.toNat_add, Nat.add_mod_mod, Nat.mod_add_mod]

theorem schedule_eq_W (block : List UInt8) :
    schedule block = (List.range 64).map (fun t => (Fips.W block t).toNat) := by
  rw [schedule, schedule_prefix_eq_W]

/-- The working variables of the standard as the eight locals of `compress`. -/
theorem round_eq_step (block : List UInt8) (v : Fips.Hash) (i : Nat) (hi : i < 64) :
    round (schedule block)
        (Vars.mk v.a.toNat v.b.toNat v.c.toNat v.d.toNat v.e.toNat v.f.toNat v.g.toNat
          v.h.toNat) i
      = Vars.mk (Fips.step v (Fips.K i) (Fips.W block i)).a.toNat
          (Fips.step v (Fips.K i) (Fips.W block i)).b.toNat
          (Fips.step v (Fips.K i) (Fips.W block i)).c.toNat
          (Fips.step v (Fips.K i) (Fips.W block i)).d.toNat
          (Fips.step v (Fips.K i) (Fips.W block i)).e.toNat
          (Fips.step v (Fips.K i) (Fips.W block i)).f.toNat
          (Fips.step v (Fips.K i) (Fips.W block i)).g.toNat
          (Fips.step v (Fips.K i) (Fips.W block i)).h.toNat := by
  rw [schedule_eq_W]
  simp only [round, Fips.step, getD_map_range _ _ _ hi, k_eq_K i hi, bsig1_eq, bsig0_eq,
    ch_eq_Ch, maj_eq_Maj, BitVec.toNat_add, Nat.add_mod_mod, Nat.mod_add_mod]

theorem rounds_eq (block : List UInt8) (hv : Fips.Hash) (n : Nat) (hn : n ≤ 64) :
    (List.range n).foldl (round (schedule block))
        (Vars.mk hv.a.toNat hv.b.toNat hv.c.toNat hv.d.toNat hv.e.toNat hv.f.toNat
          hv.g.toNat hv.h.toNat)
      = Vars.mk (Fips.rounds block hv n).a.toNat (Fips.rounds block hv n).b.toNat
          (Fips.rounds block hv n).c.toNat (Fips.rounds block hv n).d.toNat
          (Fips.rounds block hv n).e.toNat (Fips.rounds block hv n).f.toNat
          (Fips.rounds block hv n).g.toNat (Fips.rounds block hv n).h.toNat := by
  induction n with
  | zero => rw [List.range_zero, List.foldl_nil, Fips.rounds]
  | succ n ih =>
    rw [List.range_succ, List.foldl_append, ih (by omega), List.foldl_cons, List.foldl_nil,
      round_eq_step block _ n (by omega), Fips.rounds]

theorem compressWords_eq_compression (hv : Fips.Hash) (block : List UInt8) :
    compressWords (Fips.words hv) block = Fips.words (Fips.compression hv block) := by
  have e := rounds_eq block hv 64 (Nat.le_refl 64)
  simp only [compressWords, Fips.words, Fips.compression, List.getD_cons_zero,
    List.getD_cons_succ, e, BitVec.toNat_add, Nat.add_comm]

theorem foldl_compressWords_eq (blocks : List (List UInt8)) (hv : Fips.Hash) :
    blocks.foldl compressWords (Fips.words hv)
      = Fips.words (blocks.foldl Fips.compression hv) := by
  induction blocks generalizing hv with
  | nil => rw [List.foldl_nil, List.foldl_nil]
  | cons b bs ih => rw [List.foldl_cons, List.foldl_cons, compressWords_eq_compression, ih]

/-! ## Checked accesses of `compress` -/

theorem readAt_bounds {α : Type} (a : List α) (size : Nat) (j : Int) (x : α)
    (h : readAt a size j = some x) : 0 ≤ j ∧ j < size := by
  unfold readAt at h
  by_cases hc : 0 ≤ j ∧ j < size
  · exact hc
  · rw [if_neg hc] at h
    exact absurd h (by simp)

theorem writeAt_bounds (w : List Nat) (size : Nat) (i : Int) (x : Nat) (w2 : List Nat)
    (h : writeAt w size i x = some w2) : 0 ≤ i ∧ i < size := by
  unfold writeAt at h
  by_cases hc : 0 ≤ i ∧ i < size ∧ i.toNat = w.length
  · exact ⟨hc.1, hc.2.1⟩
  · rw [if_neg hc] at h
    exact absurd h (by simp)

theorem readAt_nat {α : Type} (a : List α) (size j : Nat) (d : α) (h1 : j < a.length)
    (h2 : j < size) : readAt a size (j : Int) = some (a.getD j d) := by
  have hc : (0 : Int) ≤ (j : Int) ∧ (j : Int) < (size : Int) := by omega
  rw [readAt, if_pos hc, Int.toNat_ofNat, List.getElem?_eq_getElem h1,
    List.getD_eq_getElem _ _ h1]

theorem writeAt_nat (w : List Nat) (size i : Nat) (x : Nat) (h1 : i = w.length)
    (h2 : i < size) : writeAt w size (i : Int) x = some (w ++ [x]) := by
  have hc : (0 : Int) ≤ (i : Int) ∧ (i : Int) < (size : Int) ∧ (i : Int).toNat = w.length := by
    refine ⟨by omega, by omega, ?_⟩
    rw [Int.toNat_ofNat]; exact h1
  rw [writeAt, if_pos hc]

theorem loadStepChecked_eq (block : List UInt8) (w : List Nat) (i : Nat)
    (hb : block.length = 64) (hi : i < 16) (hw : w.length = i) :
    loadStepChecked block w i = some (w ++ [loadWord block i]) := by
  have e0 : (i : Int) * 4 = ((i * 4 : Nat) : Int) := by omega
  have e1 : (i : Int) * 4 + 1 = ((i * 4 + 1 : Nat) : Int) := by omega
  have e2 : (i : Int) * 4 + 2 = ((i * 4 + 2 : Nat) : Int) := by omega
  have e3 : (i : Int) * 4 + 3 = ((i * 4 + 3 : Nat) : Int) := by omega
  rw [loadStepChecked, e1, e2, e3, e0,
    readAt_nat block 64 (i * 4) 0 (by omega) (by omega),
    readAt_nat block 64 (i * 4 + 1) 0 (by omega) (by omega),
    readAt_nat block 64 (i * 4 + 2) 0 (by omega) (by omega),
    readAt_nat block 64 (i * 4 + 3) 0 (by omega) (by omega)]
  simp only [Option.bind_eq_bind, Option.some_bind]
  rw [writeAt_nat w 64 i _ hw.symm (by omega), loadWord]

theorem extendStepChecked_eq (w : List Nat) (i : Nat) (h16 : 16 ≤ i) (hi : i < 64)
    (hw : w.length = i) : extendStepChecked w i = some (extendStep w i) := by
  have e2 : (i : Int) - 2 = ((i - 2 : Nat) : Int) := by omega
  have e7 : (i : Int) - 7 = ((i - 7 : Nat) : Int) := by omega
  have e15 : (i : Int) - 15 = ((i - 15 : Nat) : Int) := by omega
  have e16 : (i : Int) - 16 = ((i - 16 : Nat) : Int) := by omega
  rw [extendStepChecked, e2, e7, e15, e16,
    readAt_nat w 64 (i - 2) 0 (by omega) (by omega),
    readAt_nat w 64 (i - 7) 0 (by omega) (by omega),
    readAt_nat w 64 (i - 15) 0 (by omega) (by omega),
    readAt_nat w 64 (i - 16) 0 (by omega) (by omega)]
  simp only [Option.bind_eq_bind, Option.some_bind]
  rw [writeAt_nat w 64 i _ hw.symm hi, extendStep]

theorem roundChecked_eq (w : List Nat) (v : Vars) (i : Nat) (hi : i < 64)
    (hw : w.length = 64) : roundChecked w v i = some (round w v i) := by
  have hk : k.length = 64 := rfl
  rw [roundChecked, readAt_nat k 64 i 0 (by omega) hi, readAt_nat w 64 i 0 (by omega) hi]
  simp only [Option.bind_eq_bind, Option.some_bind]
  rw [round]

theorem loadLoopChecked_eq (block : List UInt8) (hb : block.length = 64) (n : Nat)
    (hn : n ≤ 16) :
    (List.range n).foldlM (loadStepChecked block) []
      = some ((List.range n).map (loadWord block)) := by
  induction n with
  | zero => rfl
  | succ n ih =>
    rw [List.range_succ, List.foldlM_append, ih (by omega), List.map_append, List.map_cons,
      List.map_nil]
    simp only [Option.bind_eq_bind, Option.some_bind, List.foldlM_cons, List.foldlM_nil]
    rw [loadStepChecked_eq block _ n hb (by omega)
      (by rw [List.length_map, List.length_range])]
    rfl

theorem extendLoopChecked_eq (w : List Nat) (hw : w.length = 16) (n : Nat) (hn : n ≤ 48) :
    (List.range' 16 n).foldlM extendStepChecked w
      = some ((List.range' 16 n).foldl extendStep w) := by
  induction n with
  | zero => rfl
  | succ n ih =>
    rw [List.range'_concat, List.foldlM_append, ih (by omega), List.foldl_append,
      Nat.one_mul]
    simp only [Option.bind_eq_bind, Option.some_bind, List.foldlM_cons, List.foldlM_nil,
      List.foldl_cons, List.foldl_nil]
    rw [extendStepChecked_eq _ (16 + n) (by omega) (by omega)
      (by rw [extend_length, hw, List.length_range'])]
    rfl

theorem scheduleChecked_eq (block : List UInt8) (hb : block.length = 64) :
    scheduleChecked block = some (schedule block) := by
  have hl : ((List.range 16).map (loadWord block)).length = 16 := by
    rw [List.length_map, List.length_range]
  rw [scheduleChecked, loadLoopChecked_eq block hb 16 (Nat.le_refl 16), Option.bind_eq_bind,
    Option.some_bind, extendLoopChecked_eq _ hl 48 (Nat.le_refl 48), schedule]

theorem roundLoopChecked_eq (w : List Nat) (hw : w.length = 64) (v : Vars) (n : Nat)
    (hn : n ≤ 64) :
    (List.range n).foldlM (roundChecked w) v = some ((List.range n).foldl (round w) v) := by
  induction n with
  | zero => rfl
  | succ n ih =>
    rw [List.range_succ, List.foldlM_append, ih (by omega), List.foldl_append]
    simp only [Option.bind_eq_bind, Option.some_bind, List.foldlM_cons, List.foldlM_nil,
      List.foldl_cons, List.foldl_nil]
    rw [roundChecked_eq w _ n (by omega) hw]
    rfl

theorem schedule_length (block : List UInt8) : (schedule block).length = 64 := by
  rw [schedule, extend_length, List.length_map, List.length_range, List.length_range']

theorem readAt_h (h : List Nat) (hh : h.length = 8) (j : Nat) (hj : j < 8) :
    readAt h 8 (j : Int) = some (h.getD j 0) :=
  readAt_nat h 8 j 0 (by omega) hj

theorem compressChecked_eq (h : List Nat) (block : List UInt8) (hh : h.length = 8)
    (hb : block.length = 64) : compressChecked h block = some (compressWords h block) := by
  have r0 : readAt h 8 0 = some (h.getD 0 0) := readAt_h h hh 0 (by decide)
  have r1 : readAt h 8 1 = some (h.getD 1 0) := readAt_h h hh 1 (by decide)
  have r2 : readAt h 8 2 = some (h.getD 2 0) := readAt_h h hh 2 (by decide)
  have r3 : readAt h 8 3 = some (h.getD 3 0) := readAt_h h hh 3 (by decide)
  have r4 : readAt h 8 4 = some (h.getD 4 0) := readAt_h h hh 4 (by decide)
  have r5 : readAt h 8 5 = some (h.getD 5 0) := readAt_h h hh 5 (by decide)
  have r6 : readAt h 8 6 = some (h.getD 6 0) := readAt_h h hh 6 (by decide)
  have r7 : readAt h 8 7 = some (h.getD 7 0) := readAt_h h hh 7 (by decide)
  rw [compressChecked, scheduleChecked_eq block hb, Option.bind_eq_bind, Option.some_bind,
    r0, Option.bind_eq_bind, Option.some_bind, r1, Option.some_bind, r2, Option.some_bind,
    r3, Option.some_bind, r4, Option.some_bind, r5, Option.some_bind, r6, Option.some_bind,
    r7, Option.some_bind,
    roundLoopChecked_eq _ (schedule_length block) _ 64 (Nat.le_refl 64),
    Option.bind_eq_bind, Option.some_bind, compressWords]

theorem loadStepChecked_bounds (block : List UInt8) (w : List Nat) (i : Nat) (w2 : List Nat)
    (h : loadStepChecked block w i = some w2) : i < 16 := by
  rw [loadStepChecked, Option.bind_eq_bind] at h
  obtain ⟨b0, _, h⟩ := Option.bind_eq_some.mp h
  obtain ⟨b1, _, h⟩ := Option.bind_eq_some.mp h
  obtain ⟨b2, _, h⟩ := Option.bind_eq_some.mp h
  obtain ⟨b3, r3, _⟩ := Option.bind_eq_some.mp h
  have := readAt_bounds _ _ _ _ r3
  omega

theorem extendStepChecked_bounds (w : List Nat) (i : Nat) (w2 : List Nat)
    (h : extendStepChecked w i = some w2) : 16 ≤ i ∧ i < 64 := by
  rw [extendStepChecked, Option.bind_eq_bind] at h
  obtain ⟨x2, _, h⟩ := Option.bind_eq_some.mp h
  obtain ⟨x7, _, h⟩ := Option.bind_eq_some.mp h
  obtain ⟨x15, _, h⟩ := Option.bind_eq_some.mp h
  obtain ⟨x16, r16, h⟩ := Option.bind_eq_some.mp h
  have b1 := readAt_bounds _ _ _ _ r16
  have b2 := writeAt_bounds _ _ _ _ _ h
  omega

theorem roundChecked_bounds (w : List Nat) (v : Vars) (i : Nat) (v2 : Vars)
    (h : roundChecked w v i = some v2) : i < 64 := by
  rw [roundChecked, Option.bind_eq_bind] at h
  obtain ⟨ki, r, _⟩ := Option.bind_eq_some.mp h
  have := readAt_bounds _ _ _ _ r
  omega

/-! ## The claims on the standard and on the accesses of `compress` -/

/-- The reference of FIPS 180-4 on the one-block message `abc` gives the digest
of the standard's first example. -/
theorem sha256Ref_abc :
    sha256Ref [0x61, 0x62, 0x63]
      = "ba7816bf8f01cfea414140de5dae2223b00361a396177a9cb410ff61f20015ad" := by
  rw [sha256Ref, ← foldl_compressWords_eq, ← fresh_h_eq_H0]
  decide!

/-- C1: refinement of the FIPS 180-4 reference.  For every byte sequence `m`
with `8 * |m| < 2^64`, a fresh engine fed `m` in one `update` and finalized
returns `sha256Ref m`: the hex rendering of the hash value that the hash
computation of the standard (its own word functions, its constants as roots
of the primes, its message schedule and rounds) gives on the 64-byte blocks of
`m ++ [0x80] ++ zeros ++ be64 (8 * |m|)`, starting from the initial hash value
of the standard.  That reference is also what folding the program's `compress`
over the same blocks gives, starting from the program's eight initial words. -/
theorem sha256_refines_reference (m : List UInt8) (hm : 8 * m.length < 2^64) :
    (final_hex (update Sha256.fresh m)).1 = sha256Ref m ∧
    sha256Ref m
      = hexEncode (((blocksOf (pad m)).foldl compressWords Sha256.fresh.h).map be32).flatten := by
  have e : sha256Ref m
      = hexEncode (((blocksOf (pad m)).foldl compressWords Sha256.fresh.h).map be32).flatten := by
    rw [sha256Ref, fresh_h_eq_H0, foldl_compressWords_eq]
  exact ⟨by rw [digest_eq_padded_fold m hm, e], e⟩

/-- Witness for C1: the three bytes of `abc`. -/
theorem sha256_refines_reference_witness :
    8 * [(0x61 : UInt8), 0x62, 0x63].length < 2^64 ∧
    (final_hex (update Sha256.fresh [0x61, 0x62, 0x63])).1 = sha256Ref [0x61, 0x62, 0x63] :=
  ⟨by decide, (sha256_refines_reference [0x61, 0x62, 0x63] (by decide)).1⟩

/-- C17: buffer accesses stay in bounds.  From every state with `len < 64`,
every copy of `update` ends at or before index 64, every store of `final_hex`
is at an index below 64 (the indices `len..63`, then `0..63` again after a
spill), and every block given to `compress` has 64 bytes.  In `compress` on
eight words and a 64-byte block every access is in bounds: the body with each
subscript checked against the declared size of its array (`block[64]`,
`w[64]`, `k[64]`, `h[8]`) never fails and computes what `compress` computes,
a checked access succeeding only at an index in `0..size-1`.  Loop by loop:
the reads `block[i*4..i*4+3]` and the write `w[i]` succeed for `i < 16`, the
reads `w[i-2]`, `w[i-7]`, `w[i-15]`, `w[i-16]` and the write `w[i]` for
`16 ≤ i < 64`, the reads `k[i]` and `w[i]` for `i < 64`, and each body fails
outside the range of its loop. -/
theorem accesses_in_bounds :
    (∀ (s : Sha256) (data : List UInt8), s.len < 64 →
      ∃ evs, (update s data).trace = s.trace ++ evs ∧ ∀ e ∈ evs, e.inBounds = true) ∧
    (∀ s : Sha256, s.len < 64 →
      ∃ evs, (final_hex s).2.trace = s.trace ++ evs ∧
        (∀ e ∈ evs, e.inBounds = true) ∧
        storeIndices evs
          = (if s.len ≤ 55 then List.range' s.len (64 - s.len)
             else List.range' s.len (64 - s.len) ++ List.range' 0 64) ∧
        ∀ i ∈ storeIndices evs, i < 64) ∧
    (∀ (h : List Nat) (block : List UInt8), h.length = 8 → block.length = 64 →
      compressChecked h block = some (compressWords h block)) ∧
    (∀ (α : Type) (a : List α) (size : Nat) (j : Int) (x : α),
      readAt a size j = some x → 0 ≤ j ∧ j < size) ∧
    (∀ (w : List Nat) (size : Nat) (i : Int) (x : Nat) (w2 : List Nat),
      writeAt w size i x = some w2 → 0 ≤ i ∧ i < size) ∧
    (∀ (block : List UInt8) (w : List Nat) (i : Nat),
      block.length = 64 → i < 16 → w.length = i →
      loadStepChecked block w i = some (w ++ [loadWord block i])) ∧
    (∀ (w : List Nat) (i : Nat), 16 ≤ i → i < 64 → w.length = i →
      extendStepChecked w i = some (extendStep w i)) ∧
    (∀ (w : List Nat) (v : Vars) (i : Nat), i < 64 → w.length = 64 →
      roundChecked w v i = some (round w v i)) ∧
    (∀ (block : List UInt8) (w : List Nat) (i : Nat) (w2 : List Nat),
      loadStepChecked block w i = some w2 → i < 16) ∧
    (∀ (w : List Nat) (i : Nat) (w2 : List Nat),
      extendStepChecked w i = some w2 → 16 ≤ i ∧ i < 64) ∧
    (∀ (w : List Nat) (v : Vars) (i : Nat) (v2 : Vars),
      roundChecked w v i = some v2 → i < 64) ∧
    (∀ block : List UInt8, (schedule block).length = 64) ∧
    k.length = 64 := by
  refine ⟨?_, ?_, fun h block hh hb => compressChecked_eq h block hh hb,
    fun α a size j x h => readAt_bounds a size j x h,
    fun w size i x w2 h => writeAt_bounds w size i x w2 h,
    fun block w i hb hi hw => loadStepChecked_eq block w i hb hi hw,
    fun w i h16 hi hw => extendStepChecked_eq w i h16 hi hw,
    fun w v i hi hw => roundChecked_eq w v i hi hw,
    fun block w i w2 h => loadStepChecked_bounds block w i w2 h,
    fun w i w2 h => extendStepChecked_bounds w i w2 h,
    fun w v i v2 h => roundChecked_bounds w v i v2 h,
    schedule_length, rfl⟩
  · intro s data hlen
    obtain ⟨evs, t1, _, _, t4⟩ := update_trace s data hlen
    exact ⟨evs, t1, t4⟩
  · intro s hlen
    obtain ⟨evs, t1, _, t3, t4⟩ := final_hex_trace s hlen
    refine ⟨evs, t1, t4, t3, ?_⟩
    intro i hi
    rw [t3] at hi
    split at hi
    · have := List.mem_range'_1.mp hi; omega
    · rcases List.mem_append.mp hi with hi | hi
      · have := List.mem_range'_1.mp hi; omega
      · have := List.mem_range'_1.mp hi; omega

/-- Witness for C17: three bytes into a fresh state, `final_hex` on it,
`compress` on the initial words and the all-zero block, and the last
iteration of each of the three loops. -/
theorem accesses_in_bounds_witness :
    (Sha256.fresh.len < 64 ∧
      ∃ evs, (update Sha256.fresh [0x61, 0x62, 0x63]).trace = Sha256.fresh.trace ++ evs ∧
        ∀ e ∈ evs, e.inBounds = true) ∧
    (Sha256.fresh.len < 64 ∧
      ∃ evs, (final_hex Sha256.fresh).2.trace = Sha256.fresh.trace ++ evs ∧
        (∀ e ∈ evs, e.inBounds = true) ∧
        storeIndices evs
          = (if Sha256.fresh.len ≤ 55 then List.range' Sha256.fresh.len (64 - Sha256.fresh.len)
             else List.range' Sha256.fresh.len (64 - Sha256.fresh.len) ++ List.range' 0 64) ∧
        ∀ i ∈ storeIndices evs, i < 64) ∧
    ((Sha256.fresh.h.length = 8 ∧ (List.replicate 64 (0 : UInt8)).length = 64) ∧
      compressChecked Sha256.fresh.h (List.replicate 64 0)
        = some (compressWords Sha256.fresh.h (List.replicate 64 0))) ∧
    (((List.replicate 64 (0 : UInt8)).length = 64 ∧ 15 < 16 ∧
        (List.replicate 15 (0 : Nat)).length = 15) ∧
      loadStepChecked (List.replicate 64 0) (List.replicate 15 0) 15
        = some (List.replicate 15 0 ++ [loadWord (List.replicate 64 0) 15])) ∧
    ((16 ≤ 63 ∧ 63 < 64 ∧ (List.replicate 63 (0 : Nat)).length = 63) ∧
      extendStepChecked (List.replicate 63 0) 63
        = some (extendStep (List.replicate 63 0) 63)) ∧
    ((63 < 64 ∧ (List.replicate 64 (0 : Nat)).length = 64) ∧
      roundChecked (List.replicate 64 0) (Vars.mk 0 0 0 0 0 0 0 0) 63
        = some (round (List.replicate 64 0) (Vars.mk 0 0 0 0 0 0 0 0) 63)) ∧
    (extendStepChecked (List.replicate 15 0) 15 = none ∧
      extendStepChecked (List.replicate 64 0) 64 = none ∧
      loadStepChecked (List.replicate 64 0) (List.replicate 16 0) 16 = none ∧
      (roundChecked (List.replicate 64 0) (Vars.mk 0 0 0 0 0 0 0 0) 64).isNone = true) :=
  ⟨⟨by decide, accesses_in_bounds.1 Sha256.fresh [0x61, 0x62, 0x63] (by decide)⟩,
    ⟨by decide, accesses_in_bounds.2.1 Sha256.fresh (by decide)⟩,
    ⟨⟨by decide, by decide⟩,
      accesses_in_bounds.2.2.1 Sha256.fresh.h (List.replicate 64 0) (by decide) (by decide)⟩,
    ⟨⟨by decide, by decide, by decide⟩,
      accesses_in_bounds.2.2.2.2.2.1 (List.replicate 64 0) (List.replicate 15 0) 15
        (by decide) (by decide) (by decide)⟩,
    ⟨⟨by decide, by decide, by decide⟩,
      accesses_in_bounds.2.2.2.2.2.2.1 (List.replicate 63 0) 63
        (by decide) (by decide) (by decide)⟩,
    ⟨⟨by decide, by decide⟩,
      accesses_in_bounds.2.2.2.2.2.2.2.1 (List.replicate 64 0) (Vars.mk 0 0 0 0 0 0 0 0) 63
        (by decide) (by decide)⟩,
    ⟨by decide, by decide, by decide, by decide⟩⟩

end Sha256Manifest


namespace LogSummarizer

theorem countLine_eq (tokens : List String) (counts : String → Nat) (line u : String) :
    countLine tokens counts line u
      = counts u + (if found line u then tokens.count u else 0) := by
  induction tokens generalizing counts with
  | nil => simp [countLine]
  | cons t tokens ih =>
    rw [countLine, List.foldl_cons, ← countLine.eq_1, ih]
    by_cases hf : found line t
    · by_cases hu : u = t
      · subst hu; simp [hf, bump]; omega
      · have hne : ¬ (t == u) = true := by simpa using fun h => hu h.symm
        simp [hf, bump, hu, List.count_cons, hne]
    · by_cases hu : u = t
      · subst hu; simp [hf]
      · have hne : ¬ (t == u) = true := by simpa using fun h => hu h.symm
        simp [hf, List.count_cons, hne]

/-- What the counting loop computes: for every key, the number of lines in
which it is found, once for each time it is listed among the tokens. -/
theorem countTokens_eq (tokens lines : List String) (u : String) :
    countTokens tokens lines u
      = tokens.count u * (lines.filter (fun line => found line u)).length := by
  have key : ∀ (c : String → Nat), lines.foldl (countLine tokens) c u
      = c u + tokens.count u * (lines.filter (fun line => found line u)).length := by
    induction lines with
    | nil => intro c; simp
    | cons line lines ih =>
      intro c
      rw [List.foldl_cons, ih, countLine_eq]
      by_cases hf : found line u
      · simp [hf, List.filter_cons, Nat.mul_add]; omega
      · simp [hf, List.filter_cons]
  rw [countTokens, key]; simp

/-- C13 fails on the code: for the one-line log `ERROR ERROR` and the default
tokens, the count reported for `ERROR` is 1 while `ERROR` occurs twice. -/
theorem count_is_per_line :
    countTokens ["ERROR", "WARN", "INFO", "DEBUG"] ["ERROR ERROR"] "ERROR" = 1 ∧
    occurrencesIn "ERROR" ["ERROR ERROR"] = 2 := by
  decide

end LogSummarizer
